import Mathlib

/-!
Verification of the DataStructures library (list.hpp, orderhashtable.hpp):
a doubly-linked list with randomized quicksort, and an insertion-ordered
separate-chaining hash table built on top of it.

The embedding models a list state by the Lean list of its node values and a
table state by a record of its four fields.  Machine integers are modeled as
Nat with explicit wraparound (mod 2^32 / mod 2^64) at the operations where
the source relies on it.  Code paths that are undefined behavior in the
source (null-pointer dereference, out-of-bounds array access) are modeled
as Option/Except failures distinct from ordinary results.
-/

namespace DataStructures

/-- 2^64, the modulus of size_t arithmetic. -/
def W64 : Nat := 18446744073709551616

/-- 2^32, the modulus of uint32_t arithmetic. -/
def W32 : Nat := 4294967296

/-- Failure modes of Sequence operations: the std::out_of_range exception
thrown by List::at, a dereference of a null Node pointer (undefined
behavior in the source), and exhaustion of the recursion fuel that the
model adds to the unbounded loops of partition and sort. -/
inductive LErr where
  | outOfRange
  | nullDeref
  | fuelOut
  deriving DecidableEq

instance [DecidableEq ε] [DecidableEq α] : DecidableEq (Except ε α) := fun a b =>
  match a, b with
  | .ok x, .ok y => decidable_of_iff (x = y) (by simp)
  | .error e, .error f => decidable_of_iff (e = f) (by simp)
  | .ok _, .error _ => isFalse (by simp)
  | .error _, .ok _ => isFalse (by simp)

/-! ## Node navigation

A live node of a list `l` is identified with its position `0 ≤ p < l.length`;
a `Node*` is an `Option Nat`, `none` being nullptr. -/

/-- The next_ pointer of the node at position p. -/
def nextPtr (l : List α) (p : Nat) : Option Nat :=
  if p + 1 < l.length then some (p + 1) else none

/-- The prev_ pointer of the node at position p. -/
def prevPtr (p : Nat) : Option Nat :=
  if p = 0 then none else some (p - 1)

/-- The head_ pointer of the list. -/
def headPtr (l : List α) : Option Nat :=
  if l.length = 0 then none else some 0

/-- The tail_ pointer of the list. -/
def tailPtr (l : List α) : Option Nat :=
  if l.length = 0 then none else some (l.length - 1)

/-- size_t subtraction of one, wrapping at zero: the value of `n - 1` in
size_t arithmetic, i.e. (n + 2^64 - 1) mod 2^64 for every n below 2^64
(all C++ values of the type). -/
def decWrap (n : Nat) : Nat := if n = 0 then W64 - 1 else n - 1

/-- The forward walk of List::at (list.hpp:250-256) unrolled on its
iteration count: each iteration returns null if the cursor is null and
otherwise steps to next_; when the count reaches the target the cursor is
returned. -/
def walkFwdAux (l : List α) : Option Nat → Nat → Option Nat
  | ptr, 0 => ptr
  | ptr, steps + 1 =>
    match ptr with
    | none => none
    | some p => walkFwdAux l (nextPtr l p) steps

/-- The forward walk from `count` up to `index`: the at loop increments
count once per step, so it runs exactly `index - count` iterations (at
enters it with count = 0 ≤ index). -/
def walkFwd (l : List α) (ptr : Option Nat) (count index : Nat) : Option Nat :=
  walkFwdAux l ptr (index - count)

/-- The backward walk of List::at (list.hpp:259-266) unrolled on its
iteration count: each iteration returns null if the cursor is null and
otherwise steps to prev_. -/
def walkBwdAux : Option Nat → Nat → Option Nat
  | ptr, 0 => ptr
  | ptr, steps + 1 =>
    match ptr with
    | none => none
    | some p => walkBwdAux (prevPtr p) steps

/-- The backward walk from `count` down to `index`: the at loop decrements
count once per step, so it runs exactly `count - index` iterations (at
enters it with count = length-1 in size_t arithmetic, which is at least
index because the bound check has already passed). -/
def walkBwd (ptr : Option Nat) (count index : Nat) : Option Nat :=
  walkBwdAux ptr (count - index)

/-- List::at (list.hpp:242-269).  The bound check is
`index > this->length_ - 1` in size_t arithmetic: on an empty list
`length_ - 1` wraps to 2^64 - 1 and the check never throws; the walk then
starts from a null anchor and returns null.  On a non-empty list the check
throws exactly when `index >= length`, and otherwise the walk from the
nearer anchor reaches node `index`. -/
def listAt (l : List α) (index : Nat) : Except LErr (Option Nat) :=
  if index > decWrap l.length then .error .outOfRange
  else if index < l.length / 2 then .ok (walkFwd l (headPtr l) 0 index)
  else .ok (walkBwd (tailPtr l) (decWrap l.length) index)

/-- Reading `at(index)->value_`: at's exception propagates, and
dereferencing the null node that at yields on an empty list is undefined
behavior.  (The inner none case cannot occur: the walk only lands on live
nodes.) -/
def atVal (l : List α) (index : Nat) : Except LErr α :=
  match listAt l index with
  | .error e => .error e
  | .ok none => .error .nullDeref
  | .ok (some p) =>
    match l[p]? with
    | some v => .ok v
    | none => .error .nullDeref

/-- List::pop_front (list.hpp:354-371): on an empty list (checked via
`empty()`, i.e. `length_ == 0`) returns the value-initialized T{} with the
list untouched; otherwise unlinks and returns the head value. -/
def listPopFront [Inhabited α] (l : List α) : α × List α :=
  if l.length = 0 then (default, l)
  else (l.headI, l.tail)

/-- List::pop_back (list.hpp:376-393): on an empty list returns the
value-initialized T{} with the list untouched; otherwise unlinks and
returns the tail value. -/
def listPopBack [Inhabited α] (l : List α) : α × List α :=
  if l.length = 0 then (default, l)
  else ((l.getLast?).getD default, l.dropLast)

/-- List::erase (list.hpp:399-420): locates the node via at — whose
out-of-range exception propagates —, silently returns when at yields a
null node (which only happens on an empty list), delegates to
pop_front/pop_back when the node is an anchor (prev_ null iff position 0,
next_ null iff last position), and otherwise splices the neighbors. -/
def listErase [Inhabited α] (l : List α) (index : Nat) : Except LErr (List α) :=
  match listAt l index with
  | .error e => .error e
  | .ok none => .ok l
  | .ok (some p) =>
    if p = 0 then .ok (listPopFront l).2
    else if p = l.length - 1 then .ok (listPopBack l).2
    else .ok (l.take p ++ l.drop (p + 1))

/-! ## Quicksort (List::sort, List::partition)

The comparator is the optional function pointer of the source; `none` means
nullptr, in which case the element type's own order is used.  The random
pivot draw `distrib(gen)` of each partition call is modeled by an arbitrary
stream of natural numbers indexed by a draw counter, reduced into
`[low, high]`.  The source's loops have no termination guarantee, so the
model threads explicit fuel; running out yields the distinguished
`LErr.fuelOut`. -/

/-- The guard of the left-cursor loop (list.hpp:294): with a comparator it
is `comp(&i_val, &pivot) == -1`, without one it is `i_val < pivot`. -/
def ltPivot [LinearOrder α] (comp : Option (α → α → Int)) (v pivot : α) : Bool :=
  match comp with
  | some f => f v pivot == -1
  | none => decide (v < pivot)

/-- The guard of the right-cursor loop (list.hpp:298): with a comparator it
is `comp(&j_val, &pivot) == 1`, without one it is `j_val > pivot`. -/
def gtPivot [LinearOrder α] (comp : Option (α → α → Int)) (v pivot : α) : Bool :=
  match comp with
  | some f => f v pivot == 1
  | none => decide (pivot < v)

/-- The left-cursor scan of List::partition (list.hpp:292-295): while the
guard holds for the current value, re-read `at(i += 1)->value_` (whose
failures propagate) and continue; return the final cursor position.  The
fuel only limits the number of advances; a cursor that stops needs none. -/
def scanLeft [LinearOrder α] (l : List α) (comp : Option (α → α → Int))
    (pivot : α) : Nat → Nat → α → Except LErr Nat
  | 0, i, v => if ltPivot comp v pivot then .error .fuelOut else .ok i
  | fuel + 1, i, v =>
    if ltPivot comp v pivot then
      match atVal l (i + 1) with
      | .error e => .error e
      | .ok v' => scanLeft l comp pivot fuel (i + 1) v'
    else .ok i

/-- The right-cursor scan of List::partition (list.hpp:296-299): while the
guard holds for the current value, re-read `at(j -= 1)->value_` — the
decrement wraps at zero, making the subsequent at throw — and continue. -/
def scanRight [LinearOrder α] (l : List α) (comp : Option (α → α → Int))
    (pivot : α) : Nat → Nat → α → Except LErr Nat
  | 0, j, v => if gtPivot comp v pivot then .error .fuelOut else .ok j
  | fuel + 1, j, v =>
    if gtPivot comp v pivot then
      match atVal l (decWrap j) with
      | .error e => .error e
      | .ok v' => scanRight l comp pivot fuel (decWrap j) v'
    else .ok j

/-- std::swap of `at(i)->value_` and `at(j)->value_` on live positions. -/
def swapVals (l : List α) (i j : Nat) : List α :=
  match l[i]?, l[j]? with
  | some a, some b => (l.set i b).set j a
  | _, _ => l

/-- The `while (true)` loop of List::partition (list.hpp:288-308): read the
cursor values, run both scans, return the right cursor when the cursors
have crossed, otherwise swap and step both cursors inward (`i++`, `j--`,
the latter wrapping at zero). -/
def partitionLoop [LinearOrder α] (comp : Option (α → α → Int))
    (pivot : α) : Nat → List α → Nat → Nat → Except LErr (Nat × List α)
  | 0, _, _, _ => .error .fuelOut
  | fuel + 1, l, i, j =>
    match atVal l i with
    | .error e => .error e
    | .ok i_val =>
      match atVal l j with
      | .error e => .error e
      | .ok j_val =>
        match scanLeft l comp pivot (fuel + 1) i i_val with
        | .error e => .error e
        | .ok i' =>
          match scanRight l comp pivot (fuel + 1) j j_val with
          | .error e => .error e
          | .ok j' =>
            if i' ≥ j' then .ok (j', l)
            else partitionLoop comp pivot fuel (swapVals l i' j') (i' + 1) (decWrap j')

/-- List::partition (list.hpp:278-309): draw the random pivot index
uniformly from [low, high] — modeled by the stream value at the current
draw counter —, read the pivot value once, then run the cursor loop from
(low, high). -/
def partitionFuel [LinearOrder α] (fuel : Nat) (stream : Nat → Nat) (ctr : Nat)
    (l : List α) (low high : Nat) (comp : Option (α → α → Int)) :
    Except LErr (Nat × List α) :=
  match atVal l (low + stream ctr % (high - low + 1)) with
  | .error e => .error e
  | .ok pivot => partitionLoop comp pivot fuel l low high

/-- List::sort (list.hpp:498-509): clamp high to `length_ - 1` in size_t
arithmetic (on an empty list `length_ - 1` wraps to 2^64 - 1, so the
default high survives the clamp), and when low < high_ partition and
recurse on [low, split] and [split+1, high_].  The draw counter is threaded
left to right; fuel bounds the recursion depth, which the source does
not. -/
def sortFuel [LinearOrder α] (stream : Nat → Nat) (comp : Option (α → α → Int)) :
    Nat → List α → Nat → Nat → Nat → Except LErr (List α × Nat)
  | 0, _, _, _, _ => .error .fuelOut
  | fuel + 1, l, ctr, low, high =>
    let lenM1 := decWrap l.length
    let high_ := if high > lenM1 then lenM1 else high
    if low < high_ then
      match partitionFuel (fuel + 1) stream ctr l low high_ comp with
      | .error e => .error e
      | .ok (pivot, l') =>
        match sortFuel stream comp fuel l' (ctr + 1) low pivot with
        | .error e => .error e
        | .ok (l'', ctr') => sortFuel stream comp fuel l'' ctr' (pivot + 1) high_
    else .ok (l, ctr)

/-- sort() with its default arguments: low = 0, high = (size_t)-1 = 2^64-1,
comp = nullptr represented by the comparator passed (none for nullptr). -/
def sortTop [LinearOrder α] (fuel : Nat) (stream : Nat → Nat)
    (comp : Option (α → α → Int)) (l : List α) : Except LErr (List α) :=
  (sortFuel stream comp fuel l 0 0 (W64 - 1)).map Prod.fst

/-! ## Helper lemmas for the Sequence claims -/

theorem walkBwdAux_none (steps : Nat) : walkBwdAux none steps = none := by
  cases steps <;> rfl

/-- Out-of-range erase behavior, split by emptiness: on an empty list at
never throws (the size_t bound check wraps) and yields null, so erase is a
silent no-op; on a non-empty list at throws std::out_of_range, which erase
propagates. -/
theorem listErase_out_of_range {α : Type} [Inhabited α] (l : List α) (i : Nat)
    (hl : l.length < W64) (hge : l.length ≤ i) (hiw : i < W64) :
    listErase l i = if l.length = 0 then .ok l else .error .outOfRange := by
  have hW : W64 = 18446744073709551616 := rfl
  rw [hW] at hl hiw
  by_cases h0 : l.length = 0
  · have hguard : ¬ (decWrap 0 < i) := by
      have hd : decWrap 0 = W64 - 1 := rfl
      rw [hd, hW]; omega
    have htail : tailPtr l = none := by simp [tailPtr, h0]
    simp [listErase, listAt, hguard, h0, htail, walkBwd, walkBwdAux_none]
  · have hmod : decWrap l.length = l.length - 1 := by simp [decWrap, h0]
    have hguard : l.length - 1 < i := by omega
    simp [listErase, listAt, hmod, hguard, h0]

/-- C3.  For every textual... (claim): at(index) raises OutOfRange exactly
when index is at least the length.  The code contradicts this (and its own
doc comment) on the empty list: the size_t expression `length_ - 1` wraps
to 2^64 - 1, the bound check never fires, and at returns a null node
handle without raising — the out-of-range index 0 on the empty Sequence
produces a null handle (which the indexing operator would then
dereference) instead of the documented exception. -/
theorem at_on_empty_list_returns_null_instead_of_raising :
    listAt ([] : List Int) 0 = .ok none := by decide

/-- C4 counterexample.  The claim says erase of an out-of-range index is a
no-op that raises no error; on the non-empty Sequence {1,2,3} with index 3
the internal at throws std::out_of_range and erase propagates it. -/
theorem erase_out_of_range_raises :
    listErase ([1, 2, 3] : List Int) 3 = .error .outOfRange := by decide

/-- C4 amended.  erase(index) with index ≥ length is a silent no-op only on
an empty Sequence (where at returns null); on a non-empty Sequence it
raises OutOfRange, propagated from at, leaving the sequence unchanged. -/
theorem erase_out_of_range_split {α : Type} [Inhabited α] (l : List α) (i : Nat)
    (hl : l.length < W64) (hge : l.length ≤ i) (hiw : i < W64) :
    listErase l i = if l.length = 0 then .ok l else .error .outOfRange :=
  listErase_out_of_range l i hl hge hiw

/-- C4 amended, witnessed at the empty list with index 2 and at {5} with
index 1. -/
theorem erase_out_of_range_split_witness :
    listErase ([] : List Int) 2 = .ok [] ∧
    listErase ([5] : List Int) 1 = .error .outOfRange := by
  constructor
  · have h := erase_out_of_range_split ([] : List Int) 2
      (by decide) (by decide) (by decide)
    simpa using h
  · have h := erase_out_of_range_split ([5] : List Int) 1
      (by decide) (by decide) (by decide)
    simpa using h

/-- C10.  pop_front() and pop_back() on an empty Sequence take the early
`empty()` exit: they return the value-initialized default and leave the
state untouched — the length stays 0 and head and tail stay null (the
empty list value), with no decrement or unlinking. -/
theorem pop_on_empty_is_identity : ∀ (α : Type) [Inhabited α],
    listPopFront ([] : List α) = (default, []) ∧
    listPopBack ([] : List α) = (default, []) := by
  intro α _
  exact ⟨rfl, rfl⟩

/-- C10 witness at element type Int. -/
theorem pop_on_empty_is_identity_witness :
    listPopFront ([] : List Int) = (0, []) ∧
    listPopBack ([] : List Int) = (0, []) :=
  pop_on_empty_is_identity Int

/-- C6.  The claim says sort() on an empty Sequence is a no-op reaching no
null-node access.  In the code, `high_` is computed from the wrapped
size_t value `length_ - 1 = 2^64 - 1`, so `low < high_` holds, partition
runs, its at(pivot index) returns null on the empty list, and
`->value_` dereferences it: the model reports the null dereference. -/
theorem sort_on_empty_list_derefs_null :
    sortTop 5 (fun _ => 0) none ([] : List Int) = .error .nullDeref := by rfl

/-! ## C7: non-termination under an adversarial pivot stream -/

/-- A cursor whose guard is already false stops where it is, whatever the
fuel. -/
theorem scanLeft_stop [LinearOrder α] {l : List α} {comp : Option (α → α → Int)}
    {pivot v : α} {i : Nat} (h : ltPivot comp v pivot = false) (fuel : Nat) :
    scanLeft l comp pivot fuel i v = .ok i := by
  cases fuel <;> simp [scanLeft, h]

theorem scanRight_stop [LinearOrder α] {l : List α} {comp : Option (α → α → Int)}
    {pivot v : α} {j : Nat} (h : gtPivot comp v pivot = false) (fuel : Nat) :
    scanRight l comp pivot fuel j v = .ok j := by
  cases fuel <;> simp [scanRight, h]

theorem partition_adversarial_step (fuel ctr : Nat) :
    partitionFuel (fuel + 1) (fun _ => 1) ctr ([1, 2] : List Int) 0 1 none =
      .ok (1, [1, 2]) := by
  have hat0 : atVal ([1, 2] : List Int) 0 = .ok 1 := by decide
  have hat1 : atVal ([1, 2] : List Int) 1 = .ok 2 := by decide
  have hlt : ltPivot (none : Option (Int → Int → Int)) 1 2 = true := by decide
  have hlt2 : ltPivot (none : Option (Int → Int → Int)) 2 2 = false := by decide
  have hgt : gtPivot (none : Option (Int → Int → Int)) 2 2 = false := by decide
  have hs1 : scanLeft ([1, 2] : List Int) none 2 (fuel + 1) 0 1 = .ok 1 := by
    simp only [scanLeft, hlt, if_true, hat1, scanLeft_stop hlt2]
  have hs2 : scanRight ([1, 2] : List Int) none 2 (fuel + 1) 1 2 = .ok 1 :=
    scanRight_stop hgt _
  have hpick : 0 + (fun _ : Nat => 1) ctr % (1 - 0 + 1) = 1 := by norm_num
  simp only [partitionFuel, hpick, hat1, partitionLoop, hat0, hs1, hs2,
    ge_iff_le, le_refl, if_true]

theorem sortFuel_adversarial_loops :
    ∀ (fuel ctr : Nat),
      sortFuel (fun _ => 1) none fuel ([1, 2] : List Int) ctr 0 1 =
        .error .fuelOut := by
  intro fuel
  induction fuel with
  | zero => intro ctr; rfl
  | succ n ih =>
    intro ctr
    have hmod : decWrap ([1, 2] : List Int).length = 1 := by decide
    simp only [sortFuel, hmod, gt_iff_lt, Nat.lt_irrefl, if_false,
      Nat.zero_lt_one, if_true, partition_adversarial_step, ih]

/-- C7.  The claim says sort() terminates with the sorted sequence
regardless of which pivots the random source picks.  Against the pivot
stream that always draws the high index, partition on the Sequence {1,2}
picks the maximal element 2 as pivot, neither cursor moves past it, and
the split point returned is high itself, so sort recurses on the identical
range [0,1] forever: no amount of fuel makes the run finish. -/
theorem sort_never_terminates_on_adversarial_pivots :
    ∀ fuel : Nat,
      sortTop fuel (fun _ => 1) none ([1, 2] : List Int) = .error .fuelOut := by
  intro fuel
  cases fuel with
  | zero => rfl
  | succ n =>
    have hmod : decWrap ([1, 2] : List Int).length = 1 := by decide
    have hW : (1 : Nat) < W64 - 1 := by decide
    simp only [sortTop, sortFuel, hmod, gt_iff_lt, hW, if_true,
      Nat.zero_lt_one, partition_adversarial_step,
      sortFuel_adversarial_loops, Except.map]

/-! ## C8: cursor movement is keyed to the exact values -1 and +1 -/

/-- A contract-conforming three-way comparator on Int that reports order
with magnitude 2 instead of 1. -/
def cmp2 : Int → Int → Int := fun a b => if a < b then -2 else if b < a then 2 else 0

/-- A comparator that always reports equality. -/
def cmpZ : Int → Int → Int := fun _ _ => 0

/-- C8 counterexample.  cmp2 orders 1 before 2 with a negative result and
2 after 1 with a positive result, yet neither cursor moves: the guards
compare the result to the exact values -1 and +1, and consequently sort
leaves {1,2} unsorted as {2,1} under this contract-conforming
comparator. -/
theorem comparator_magnitude_is_not_ignored :
    cmp2 1 2 < 0 ∧ scanLeft ([1, 2] : List Int) (some cmp2) 2 5 0 1 = .ok 0 ∧
    0 < cmp2 2 1 ∧ scanRight ([1, 2] : List Int) (some cmp2) 1 5 1 2 = .ok 1 ∧
    sortTop 10 (fun _ => 0) (some cmp2) [1, 2] = .ok [2, 1] := by
  refine ⟨by decide, by decide, by decide, by decide, by rfl⟩

theorem beq_int_congr {a b c d : Int} (h : a = b ↔ c = d) : (a == b) = (c == d) := by
  rw [Bool.eq_iff_iff, beq_iff_eq, beq_iff_eq]; exact h

theorem scanLeft_congr {α : Type} [LinearOrder α] (f g : α → α → Int)
    (h : ∀ a b, f a b = -1 ↔ g a b = -1) :
    ∀ (fuel : Nat) (l : List α) (pivot : α) (i : Nat) (v : α),
      scanLeft l (some f) pivot fuel i v = scanLeft l (some g) pivot fuel i v := by
  intro fuel
  induction fuel with
  | zero =>
    intro l pivot i v
    simp only [scanLeft, ltPivot, beq_int_congr (h v pivot)]
  | succ n ih =>
    intro l pivot i v
    simp only [scanLeft, ltPivot, beq_int_congr (h v pivot)]
    split
    · cases atVal l (i + 1) with
      | error e => rfl
      | ok v' => exact ih l pivot (i + 1) v'
    · rfl

theorem scanRight_congr {α : Type} [LinearOrder α] (f g : α → α → Int)
    (h : ∀ a b, f a b = 1 ↔ g a b = 1) :
    ∀ (fuel : Nat) (l : List α) (pivot : α) (j : Nat) (v : α),
      scanRight l (some f) pivot fuel j v = scanRight l (some g) pivot fuel j v := by
  intro fuel
  induction fuel with
  | zero =>
    intro l pivot j v
    simp only [scanRight, gtPivot, beq_int_congr (h v pivot)]
  | succ n ih =>
    intro l pivot j v
    simp only [scanRight, gtPivot, beq_int_congr (h v pivot)]
    split
    · cases atVal l (decWrap j) with
      | error e => rfl
      | ok v' => exact ih l pivot (decWrap j) v'
    · rfl

/-- C8 amended.  Cursor movement in partition is governed by comparison of
the comparator's result to the exact values -1 (left cursor) and +1 (right
cursor), not by its sign: two comparators that agree on where they return
-1 and where they return +1 drive the cursors identically, whatever other
values they return. -/
theorem cursor_guards_test_exact_unit_values {α : Type} [LinearOrder α]
    (fuel : Nat) (l : List α) (f g : α → α → Int) (pivot v : α) (i : Nat)
    (h : ∀ a b, (f a b = -1 ↔ g a b = -1) ∧ (f a b = 1 ↔ g a b = 1)) :
    scanLeft l (some f) pivot fuel i v = scanLeft l (some g) pivot fuel i v ∧
    scanRight l (some f) pivot fuel i v = scanRight l (some g) pivot fuel i v :=
  ⟨scanLeft_congr f g (fun a b => (h a b).1) fuel l pivot i v,
   scanRight_congr f g (fun a b => (h a b).2) fuel l pivot i v⟩

/-- C8 amended witness: cmp2 and cmpZ agree on (never) returning -1 and +1,
so the scans treat them identically on the Sequence {1,2}. -/
theorem cursor_guards_test_exact_unit_values_witness :
    scanLeft ([1, 2] : List Int) (some cmp2) 2 5 0 1 =
      scanLeft ([1, 2] : List Int) (some cmpZ) 2 5 0 1 ∧
    scanRight ([1, 2] : List Int) (some cmp2) 2 5 0 1 =
      scanRight ([1, 2] : List Int) (some cmpZ) 2 5 0 1 := by
  have h : ∀ a b : Int, (cmp2 a b = -1 ↔ cmpZ a b = -1) ∧
      (cmp2 a b = 1 ↔ cmpZ a b = 1) := by
    intro a b
    unfold cmp2 cmpZ
    constructor
    · constructor
      · intro hx; split_ifs at hx <;> omega
      · intro hx; omega
    · constructor
      · intro hx; split_ifs at hx <;> omega
      · intro hx; omega
  exact cursor_guards_test_exact_unit_values 5 [1, 2] cmp2 cmpZ 2 1 0 h

/-! ## Ordered hash table (orderhashtable.hpp)

Keys are the byte strings held by std::string, modeled as lists of byte
values; the record chains of each bucket are modeled by lists of
(key, value) pairs, and the bucket array by a list of such chains.
Out-of-bounds bucket accesses — possible because the hash function can
yield 2^64 - 1, see below — are undefined behavior in the source and are
modeled as `none` results. -/

/-- A textual key: the byte contents of the std::string. -/
abbrev Key : Type := List Nat

/-- Numerator of HASH_CONST_D as compiled: the literal 2.23606797749978969
rounds to the nearest double, whose exact value minus 1, halved (both
operations exact in binary64), is the dyadic rational
347922205179541 / 2^49. -/
def DNUM : Nat := 347922205179541

/-- Denominator of HASH_CONST_D as compiled: 2^49. -/
def DDEN : Nat := 562949953421312

/-- The djb2 fold of hash_function (orderhashtable.hpp:199-203): a uint32
accumulator seeded with HASH_CONST_I = 5381; each byte updates it to
33 * acc + byte in wrapping uint32 arithmetic. -/
def keyIntOf (key : Key) : Nat :=
  key.foldl (fun acc b => (33 * acc + b) % W32) 5381

/-- hash_function (orderhashtable.hpp:194-212) before the cast to uint64:
`ceil(size_arr * fmod(key_int * HASH_CONST_D, 1)) - 1`, with arr_size = 0
meaning "use the table's own size".  The double arithmetic is idealized as
exact arithmetic on the dyadic rational HASH_CONST_D = DNUM/DDEN (the
rounding of the two multiplications is not modeled; it cannot affect the
zero-fractional-part case below, where every step is exact).  The result
is -1 exactly when the fractional part of key_int * HASH_CONST_D is
zero. -/
def hashVal (size_ : Nat) (key : Key) (arr_size : Nat) : Int :=
  let size_arr_ : Nat := if arr_size = 0 then size_ else arr_size
  let r : Nat := (keyIntOf key * DNUM) % DDEN
  (((size_arr_ * r + (DDEN - 1)) / DDEN : Nat) : Int) - 1

/-- The hash as used for indexing: the uint64 cast wraps -1 to 2^64 - 1. -/
def hashIdx (size_ : Nat) (key : Key) (arr_size : Nat) : Nat :=
  (hashVal size_ key arr_size % (W64 : Int)).toNat

/-- OrderedHashTable state (orderhashtable.hpp:100-107): physical size,
live-record count, the array of bucket chains, and the insertion-order key
list.  record_count_ is uint32 in the source; its wraparound (above 2^32
live keys) is not modeled, nor is size_t overflow of size_ (above 2^63
buckets). -/
structure Table (V : Type) where
  size_ : Nat
  record_count_ : Nat
  record_arr_ : List (List (Key × V))
  key_list_ : List Key
  deriving DecidableEq

/-- The capacity constructor (orderhashtable.hpp:255-264): the size is the
larger of MIN_TABLE_SIZE = 64 and the requested size (the default argument
is 0), every bucket starts as an empty chain, and no keys exist. -/
def mkTable (size : Nat) : Table V :=
  { size_ := if 64 > size then 64 else size
    record_count_ := 0
    record_arr_ := List.replicate (if 64 > size then 64 else size) []
    key_list_ := [] }

/-- keys() (orderhashtable.hpp:309-313): the insertion-order key list. -/
def keysT (t : Table V) : List Key := t.key_list_

/-- length() (orderhashtable.hpp:318-322): the live-record count. -/
def lengthT (t : Table V) : Nat := t.record_count_

/-- get (orderhashtable.hpp:414-427): scan the bucket at the key's hash
for the first record with this key and return its value, or the value
type's default when absent; an out-of-bounds bucket index is undefined
behavior (none). -/
def getT [Inhabited V] (t : Table V) (key : Key) : Option V :=
  match t.record_arr_[hashIdx t.size_ key 0]? with
  | none => none
  | some cell =>
    match cell.find? (fun r => r.1 == key) with
    | some r => some r.2
    | none => some default

/-- operator[] (orderhashtable.hpp:439-452): scan the bucket at the key's
hash; return a handle on the first matching record's value, or throw
KeyException carrying the missing key. -/
def subscriptT (t : Table V) (key : Key) : Option (Except Key V) :=
  match t.record_arr_[hashIdx t.size_ key 0]? with
  | none => none
  | some cell =>
    match cell.find? (fun r => r.1 == key) with
    | some r => some (.ok r.2)
    | none => some (.error key)

/-- Assignment through operator[]: the reference returned for an existing
key is written, replacing that record's value in place; when the key is
absent the thrown KeyException means no state results. -/
def subscrSet (t : Table V) (key : Key) (value : V) : Option (Table V) :=
  let index := hashIdx t.size_ key 0
  match t.record_arr_[index]? with
  | none => none
  | some cell =>
    match cell.findIdx? (fun r => r.1 == key) with
    | some i => some { t with record_arr_ := t.record_arr_.set index (cell.set i (key, value)) }
    | none => none

/-- One step of the rehash loop of expand (orderhashtable.hpp:229-235):
hash the key against the enlarged size, read its value from the old table
via get, and append a fresh record to the corresponding new bucket; a
chain index outside the new array would be an out-of-bounds write. -/
def expandStep [Inhabited V] (t : Table V) (newSize : Nat)
    (acc : Option (List (List (Key × V)))) (key : Key) :
    Option (List (List (Key × V))) :=
  match acc with
  | none => none
  | some temp =>
    let index := hashIdx t.size_ key newSize
    match getT t key with
    | none => none
    | some value =>
      match temp[index]? with
      | none => none
      | some cell => some (temp.set index (cell ++ [(key, value)]))

/-- expand (orderhashtable.hpp:219-244): allocate GROWTH_RATE * size empty
chains, re-insert every key of the order list — in order — into its new
bucket with its current value, then adopt the new array and the doubled
size.  The key list and record count are untouched. -/
def expandT [Inhabited V] (t : Table V) : Option (Table V) :=
  (t.key_list_.foldl (expandStep t (t.size_ * 2))
      (some (List.replicate (t.size_ * 2) []))).map
    fun temp => { t with record_arr_ := temp, size_ := t.size_ * 2 }

/-- insert (orderhashtable.hpp:331-353): if the bucket already holds the
key, overwrite that record's value and return (no resize check); otherwise
append a fresh record to the bucket, append the key to the order list,
bump the count, and if record_count_ / size_ has reached
MAX_UTIL_PERCENT = 0.5 — the comparison is exact for every attainable
count and size, so it is `size_ ≤ 2 * record_count_` — run expand. -/
def insertT [Inhabited V] (t : Table V) (key : Key) (value : V) : Option (Table V) :=
  let index := hashIdx t.size_ key 0
  match t.record_arr_[index]? with
  | none => none
  | some cell =>
    match cell.findIdx? (fun r => r.1 == key) with
    | some i => some { t with record_arr_ := t.record_arr_.set index (cell.set i (key, value)) }
    | none =>
      let t1 : Table V :=
        { t with key_list_ := t.key_list_ ++ [key]
                 record_count_ := t.record_count_ + 1
                 record_arr_ := t.record_arr_.set index (cell ++ [(key, value)]) }
      if t1.size_ ≤ 2 * t1.record_count_ then expandT t1 else some t1

/-- erase (orderhashtable.hpp:358-382): remove the first record with the
key from its bucket (by position, decrementing the count) if present, then
remove the first occurrence of the key from the order list if present;
either scan is a no-op when it finds nothing. -/
def eraseT (t : Table V) (key : Key) : Option (Table V) :=
  let index := hashIdx t.size_ key 0
  match t.record_arr_[index]? with
  | none => none
  | some cell =>
    let bucketStep : List (Key × V) × Nat :=
      match cell.findIdx? (fun r => r.1 == key) with
      | some i => (cell.eraseIdx i, t.record_count_ - 1)
      | none => (cell, t.record_count_)
    let kl : List Key :=
      match t.key_list_.findIdx? (fun k => k == key) with
      | some i => t.key_list_.eraseIdx i
      | none => t.key_list_
    some { t with record_arr_ := t.record_arr_.set index bucketStep.1
                  record_count_ := bucketStep.2
                  key_list_ := kl }

/-- pop (orderhashtable.hpp:390-405): pop_back the order list (on an empty
table this yields the empty string, the std::string default), look up that
key's bucket, pop_back the chain — obtaining a null Record pointer when
the chain is empty, whose dereference is undefined behavior (none) —, and
otherwise return the record's value with the count decremented. -/
def popT [Inhabited V] (t : Table V) : Option (V × Table V) :=
  let key : Key := (t.key_list_.getLast?).getD []
  let kl := t.key_list_.dropLast
  let index := hashIdx t.size_ key 0
  match t.record_arr_[index]? with
  | none => none
  | some cell =>
    match cell.getLast? with
    | none => none
    | some r =>
      some (r.2, { t with key_list_ := kl
                          record_count_ := t.record_count_ - 1
                          record_arr_ := t.record_arr_.set index cell.dropLast })

/-- A sequence of inserts, left to right. -/
def insertSeq [Inhabited V] (t : Table V) (kvs : List (Key × V)) : Option (Table V) :=
  kvs.foldl (fun acc kv => acc.bind fun s => insertT s kv.1 kv.2) (some t)

/-- The states an OrderedHashTable can reach through its public mutating
interface: construction with any requested capacity, insert, erase, pop,
and assignment through operator[] — each taken only when the source's run
is defined (the model returns a state). -/
inductive Reachable {V : Type} [Inhabited V] : Table V → Prop where
  | mk (size : Nat) : Reachable (mkTable size)
  | insert {t t' : Table V} (key : Key) (value : V) :
      Reachable t → insertT t key value = some t' → Reachable t'
  | erase {t t' : Table V} (key : Key) :
      Reachable t → eraseT t key = some t' → Reachable t'
  | pop {t t' : Table V} {value : V} :
      Reachable t → popT t = some (value, t') → Reachable t'
  | subscriptAssign {t t' : Table V} (key : Key) (value : V) :
      Reachable t → subscrSet t key value = some t' → Reachable t'

/-! ## Hash range facts -/

/-- When the fractional part of key_int * D is nonzero, the hash before the
cast is ceil(size_arr * frac) - 1 with the ceil in [1, size_arr], so the
bucket index lies below size_arr (also after the uint64 wrap). -/
theorem hashIdx_lt_of_ne_zero (s : Nat) (key : Key) (hs : 0 < s)
    (hr : (keyIntOf key * DNUM) % DDEN ≠ 0) : hashIdx s key 0 < s := by
  have hD : DDEN = 562949953421312 := rfl
  have hW : W64 = 18446744073709551616 := rfl
  have hrlt : (keyIntOf key * DNUM) % DDEN < DDEN := Nat.mod_lt _ (by rw [hD]; omega)
  have hrpos : 0 < (keyIntOf key * DNUM) % DDEN := Nat.pos_of_ne_zero hr
  have hsr : 0 < s * ((keyIntOf key * DNUM) % DDEN) := Nat.mul_pos hs hrpos
  have hc1 : 1 ≤ (s * ((keyIntOf key * DNUM) % DDEN) + (DDEN - 1)) / DDEN := by
    rw [Nat.le_div_iff_mul_le (by rw [hD]; omega)]
    omega
  have hcs : (s * ((keyIntOf key * DNUM) % DDEN) + (DDEN - 1)) / DDEN ≤ s := by
    have hmul : s * ((keyIntOf key * DNUM) % DDEN) ≤ s * (DDEN - 1) :=
      Nat.mul_le_mul_left s (by omega)
    have h3 : s * (DDEN - 1) ≤ DDEN * s := by
      calc s * (DDEN - 1) ≤ s * DDEN := Nat.mul_le_mul_left s (by omega)
      _ = DDEN * s := Nat.mul_comm s DDEN
    have h2 : s * ((keyIntOf key * DNUM) % DDEN) + (DDEN - 1) < (s + 1) * DDEN := by
      have hDs : (s + 1) * DDEN = DDEN * s + DDEN := by ring
      omega
    have h4 : (s * ((keyIntOf key * DNUM) % DDEN) + (DDEN - 1)) / DDEN < s + 1 := by
      rw [Nat.div_lt_iff_lt_mul (by rw [hD]; omega)]
      exact h2
    omega
  rw [hashIdx]
  have hval : hashVal s key 0 =
      (((s * ((keyIntOf key * DNUM) % DDEN) + (DDEN - 1)) / DDEN : Nat) : Int) - 1 := by
    simp [hashVal]
  rw [hval]
  generalize hgen : (s * ((keyIntOf key * DNUM) % DDEN) + (DDEN - 1)) / DDEN = c at hc1 hcs ⊢
  rcases lt_or_le ((c : Int) - 1) (W64 : Int) with hlt | hge
  · rw [Int.emod_eq_of_lt (by omega) hlt]
    omega
  · have h0 : (0 : Int) < (W64 : Int) := by
      have : 0 < W64 := by rw [hW]; omega
      exact_mod_cast this
    have h1 := Int.emod_nonneg ((c : Int) - 1) (by omega : (W64 : Int) ≠ 0)
    have h2 := Int.emod_lt_of_pos ((c : Int) - 1) h0
    omega

/-- With a zero fractional part the hash before the cast is exactly
ceil(0) - 1 = -1. -/
theorem hashVal_of_zero_frac (s : Nat) (key : Key)
    (hr : (keyIntOf key * DNUM) % DDEN = 0) : hashVal s key 0 = -1 := by
  simp [hashVal, hr]
  decide

/-- The -1 of a zero fractional part wraps to 2^64 - 1 under the uint64
cast, whatever the table size. -/
theorem hashIdx_of_zero_frac (s : Nat) (key : Key)
    (hr : (keyIntOf key * DNUM) % DDEN = 0) : hashIdx s key 0 = W64 - 1 := by
  rw [hashIdx, hashVal_of_zero_frac s key hr]
  decide

/-- A nonzero size override replaces the table's own size. -/
theorem hashIdx_override (s a : Nat) (key : Key) (ha : a ≠ 0) :
    hashIdx s key a = hashIdx a key 0 := by
  simp [hashIdx, hashVal, ha]

/-- A key whose bucket index is in range at some size stays in range at
every size at least as large: nonzero fractional parts always land in
range, and the wrapped -1 of a zero fractional part is the constant
2^64 - 1, below the larger size whenever it was below the smaller one. -/
theorem hashIdx_lt_of_le (s s' : Nat) (key : Key) (hs' : 0 < s') (hss' : s ≤ s')
    (h : hashIdx s key 0 < s) : hashIdx s' key 0 < s' := by
  by_cases hr : (keyIntOf key * DNUM) % DDEN = 0
  · rw [hashIdx_of_zero_frac s key hr] at h
    rw [hashIdx_of_zero_frac s' key hr]
    omega
  · exact hashIdx_lt_of_ne_zero s' key hs' hr

/-! ## Well-formedness of table states -/

/-- Bucket i of a table: the chain at index i, empty outside the array. -/
def bkt (t : Table V) (i : Nat) : List (Key × V) := (t.record_arr_[i]?).getD []

/-- The structural well-formedness every reachable table state enjoys:
the array length agrees with size_, size_ respects the minimum capacity,
the load factor is strictly below the threshold, the order list has no
duplicate keys and every key in it hashes into range, every record sits in
the bucket its key hashes to, each bucket's key sequence is an
order-preserving selection from the order list, and every listed key has a
record in its bucket. -/
structure WF {V : Type} (t : Table V) : Prop where
  hlen : t.record_arr_.length = t.size_
  hmin : 64 ≤ t.size_
  hload : 2 * t.record_count_ < t.size_
  hnodup : t.key_list_.Nodup
  hrange : ∀ k ∈ t.key_list_, hashIdx t.size_ k 0 < t.size_
  hplace : ∀ i, ∀ r ∈ bkt t i, hashIdx t.size_ r.1 0 = i
  hsub : ∀ i, ((bkt t i).map Prod.fst).Sublist t.key_list_
  hmem : ∀ k ∈ t.key_list_, ∃ r ∈ bkt t (hashIdx t.size_ k 0), r.1 = k

theorem bkt_eq_of_getElem? {t : Table V} {i : Nat} {c : List (Key × V)}
    (h : t.record_arr_[i]? = some c) : bkt t i = c := by
  simp [bkt, h]

/-- Every bucket of a freshly constructed table is empty. -/
theorem bkt_mkTable (size : Nat) (i : Nat) : bkt (mkTable size : Table V) i = [] := by
  simp only [bkt, mkTable]
  rcases lt_or_le i (if 64 > size then 64 else size) with h | h
  · rw [List.getElem?_replicate, if_pos h]
    rfl
  · rw [List.getElem?_replicate, if_neg (by omega)]
    rfl

/-- The constructor establishes well-formedness. -/
theorem mkTable_WF (size : Nat) : WF (mkTable size : Table V) := by
  refine ⟨?_, ?_, ?_, ?_, ?_, ?_, ?_, ?_⟩
  · simp [mkTable]
  · simp only [mkTable]
    split <;> omega
  · simp [mkTable]
    split <;> omega
  · simp [mkTable]
  · intro k hk
    simp [mkTable] at hk
  · intro i r hr
    rw [bkt_mkTable] at hr
    simp at hr
  · intro i
    rw [bkt_mkTable]
    simp [mkTable]
  · intro k hk
    simp [mkTable] at hk

theorem getElem?_eq_some_bkt {t : Table V} {i : Nat} (h : i < t.record_arr_.length) :
    t.record_arr_[i]? = some (bkt t i) := by
  rw [bkt, List.getElem?_eq_getElem h]
  rfl

/-- get never goes wrong on a key that hashes into range. -/
theorem getT_isSome_of_lt [Inhabited V] {t : Table V} {k : Key}
    (hlen : t.record_arr_.length = t.size_) (h : hashIdx t.size_ k 0 < t.size_) :
    (getT t k).isSome := by
  rw [getT, getElem?_eq_some_bkt (by omega)]
  cases hf : (bkt t (hashIdx t.size_ k 0)).find? (fun r => r.1 == k) <;> simp [hf]

/-- Scanning a keyed association built by mapping over a duplicate-free key
list finds exactly the entry of the requested key. -/
theorem find?_map_keyed {V : Type} (ks : List Key) (f : Key → V) (k : Key)
    (hk : k ∈ ks) (hnd : ks.Nodup) :
    (ks.map (fun x => (x, f x))).find? (fun r => r.1 == k) = some (k, f k) := by
  induction ks with
  | nil => simp at hk
  | cons a ks ih =>
    rcases List.mem_cons.mp hk with rfl | hk'
    · simp [List.find?_cons]
    · have hna : a ≠ k := by
        rintro rfl
        exact (List.nodup_cons.mp hnd).1 hk'
      have hbeq : (a == k) = false := by simp [hna]
      simp only [List.map_cons, List.find?_cons, hbeq]
      exact ih hk' (List.nodup_cons.mp hnd).2

/-- The rehash fold of expand: given that every key can be read back and
hashes into the new array, it succeeds, and each new bucket receives —
behind whatever the accumulator already held — exactly the keys hashing to
it, in order, paired with their current values. -/
theorem expand_fold_spec [Inhabited V] (t : Table V) (ns : Nat) :
    ∀ (kl : List Key) (acc : List (List (Key × V))),
      (∀ k ∈ kl, (getT t k).isSome) →
      (∀ k ∈ kl, hashIdx t.size_ k ns < ns) →
      acc.length = ns →
      ∃ temp, kl.foldl (expandStep t ns) (some acc) = some temp ∧
        temp.length = ns ∧
        ∀ j, temp[j]? = (acc[j]?).map
          (fun c => c ++ (kl.filter (fun k => hashIdx t.size_ k ns == j)).map
            (fun k => (k, (getT t k).getD default))) := by
  intro kl
  induction kl with
  | nil =>
    intro acc hval hidx hlen
    refine ⟨acc, rfl, hlen, ?_⟩
    intro j
    simp
  | cons k kl ih =>
    intro acc hval hidx hlen
    obtain ⟨v, hv⟩ := Option.isSome_iff_exists.mp (hval k (by simp))
    have hklt : hashIdx t.size_ k ns < acc.length := by
      rw [hlen]; exact hidx k (by simp)
    have hacc : acc[hashIdx t.size_ k ns]? = some (acc.get ⟨hashIdx t.size_ k ns, hklt⟩) :=
      List.getElem?_eq_getElem hklt
    have hstep : expandStep t ns (some acc) k =
        some (acc.set (hashIdx t.size_ k ns)
          ((acc.get ⟨hashIdx t.size_ k ns, hklt⟩) ++ [(k, v)])) := by
      rw [expandStep, hv, hacc]
    obtain ⟨temp, hfold, hlent, hchar⟩ := ih
      (acc.set (hashIdx t.size_ k ns) ((acc.get ⟨hashIdx t.size_ k ns, hklt⟩) ++ [(k, v)]))
      (fun x hx => hval x (by simp [hx]))
      (fun x hx => hidx x (by simp [hx]))
      (by rw [List.length_set]; exact hlen)
    refine ⟨temp, ?_, hlent, ?_⟩
    · rw [List.foldl_cons, hstep]
      exact hfold
    · intro j
      rw [hchar j]
      by_cases hj : hashIdx t.size_ k ns = j
      · subst hj
        rw [List.getElem?_set_self hklt, hacc]
        have hbeq : (hashIdx t.size_ k ns == hashIdx t.size_ k ns) = true :=
          beq_self_eq_true _
        simp only [List.filter_cons, hbeq, if_true, List.map_cons, hv,
          Option.getD_some, Option.map_some]
        simp [List.append_assoc]
      · rw [List.getElem?_set_ne hj]
        have hbeq : (hashIdx t.size_ k ns == j) = false := by simp [hj]
        simp [List.filter_cons, hbeq]

/-- expand on a structurally well-formed table: it succeeds, doubles the
size, keeps the count and the key list, rebuilds every structural
invariant, and leaves get and operator[] unchanged on every present
key. -/
theorem expandT_lemma [Inhabited V] {t : Table V}
    (hlen : t.record_arr_.length = t.size_) (hmin : 64 ≤ t.size_)
    (hnodup : t.key_list_.Nodup)
    (hrange : ∀ k ∈ t.key_list_, hashIdx t.size_ k 0 < t.size_)
    (hmem : ∀ k ∈ t.key_list_, ∃ r ∈ bkt t (hashIdx t.size_ k 0), r.1 = k) :
    ∃ t', expandT t = some t' ∧
      t'.size_ = t.size_ * 2 ∧ t'.record_count_ = t.record_count_ ∧
      t'.key_list_ = t.key_list_ ∧
      t'.record_arr_.length = t'.size_ ∧
      (∀ i, ∀ r ∈ bkt t' i, hashIdx t'.size_ r.1 0 = i) ∧
      (∀ i, ((bkt t' i).map Prod.fst).Sublist t'.key_list_) ∧
      (∀ k ∈ t'.key_list_, ∃ r ∈ bkt t' (hashIdx t'.size_ k 0), r.1 = k) ∧
      (∀ k ∈ t.key_list_, getT t' k = getT t k ∧ subscriptT t' k = subscriptT t k) := by
  have hns : t.size_ * 2 ≠ 0 := by omega
  have hover : ∀ k : Key, hashIdx t.size_ k (t.size_ * 2) = hashIdx (t.size_ * 2) k 0 :=
    fun k => hashIdx_override _ _ k hns
  have hidx2 : ∀ k ∈ t.key_list_, hashIdx t.size_ k (t.size_ * 2) < t.size_ * 2 := by
    intro k hk
    rw [hover k]
    exact hashIdx_lt_of_le t.size_ (t.size_ * 2) k (by omega) (by omega) (hrange k hk)
  obtain ⟨temp, hfold, hlent, hchar⟩ := expand_fold_spec t (t.size_ * 2) t.key_list_
    (List.replicate (t.size_ * 2) [])
    (fun k hk => getT_isSome_of_lt hlen (hrange k hk))
    hidx2
    (List.length_replicate _ _)
  have hexp : expandT t =
      some { t with record_arr_ := temp, size_ := t.size_ * 2 } := by
    rw [expandT, hfold]
    rfl
  set t' : Table V := { t with record_arr_ := temp, size_ := t.size_ * 2 } with ht'
  have hbkt : ∀ j, bkt t' j =
      (t.key_list_.filter (fun k => hashIdx t.size_ k (t.size_ * 2) == j)).map
        (fun k => (k, (getT t k).getD default)) := by
    intro j
    rcases lt_or_le j (t.size_ * 2) with hj | hj
    · have := hchar j
      rw [List.getElem?_replicate, if_pos hj] at this
      simp only [bkt, ht', this]
      rfl
    · have h1 : temp[j]? = none := List.getElem?_eq_none (by omega)
      have h2 : (t.key_list_.filter
          (fun k => hashIdx t.size_ k (t.size_ * 2) == j)) = [] := by
        rw [List.filter_eq_nil_iff]
        intro k hk
        have := hidx2 k hk
        simp only [beq_iff_eq]
        omega
      simp only [bkt, ht', h1, h2, List.map_nil]
      rfl
  have hgets : ∀ k ∈ t.key_list_,
      getT t' k = some ((getT t k).getD default) ∧
      subscriptT t' k = some (.ok ((getT t k).getD default)) := by
    intro k hk
    have hidxlt : hashIdx t'.size_ k 0 < t'.size_ := by
      have : t'.size_ = t.size_ * 2 := rfl
      rw [this]
      exact hashIdx_lt_of_le t.size_ (t.size_ * 2) k (by omega) (by omega) (hrange k hk)
    have hlen' : t'.record_arr_.length = t'.size_ := hlent
    have harr : t'.record_arr_[hashIdx t'.size_ k 0]? =
        some (bkt t' (hashIdx t'.size_ k 0)) :=
      getElem?_eq_some_bkt (by omega)
    have hfindK : (bkt t' (hashIdx t'.size_ k 0)).find? (fun r => r.1 == k) =
        some (k, (getT t k).getD default) := by
      rw [hbkt]
      apply find?_map_keyed
      · rw [List.mem_filter]
        refine ⟨hk, ?_⟩
        have : hashIdx t.size_ k (t.size_ * 2) = hashIdx t'.size_ k 0 := hover k
        simp [this]
      · exact (List.filter_sublist _).nodup hnodup
    constructor
    · simp only [getT, harr, hfindK]
    · simp only [subscriptT, harr, hfindK]
  refine ⟨t', hexp, rfl, rfl, rfl, hlent, ?_, ?_, ?_, ?_⟩
  · intro i r hr
    rw [hbkt i] at hr
    obtain ⟨x, hx, hxr⟩ := List.mem_map.mp hr
    obtain ⟨hxkl, hxbeq⟩ := List.mem_filter.mp hx
    have : hashIdx t.size_ x (t.size_ * 2) = i := by
      exact beq_iff_eq.mp hxbeq
    rw [← hxr]
    simp only
    rw [← hover x]
    exact this
  · intro i
    rw [hbkt i]
    have : ((t.key_list_.filter (fun k => hashIdx t.size_ k (t.size_ * 2) == i)).map
        (fun k => (k, (getT t k).getD default))).map Prod.fst =
        t.key_list_.filter (fun k => hashIdx t.size_ k (t.size_ * 2) == i) := by
      rw [List.map_map]
      exact List.map_id _
    rw [this]
    exact List.filter_sublist _
  · intro k hk
    refine ⟨(k, (getT t k).getD default), ?_, rfl⟩
    rw [hbkt]
    apply List.mem_map.mpr
    refine ⟨k, ?_, rfl⟩
    rw [List.mem_filter]
    refine ⟨hk, ?_⟩
    have : hashIdx t.size_ k (t.size_ * 2) = hashIdx t'.size_ k 0 := hover k
    simp [this]
  · intro k hk
    obtain ⟨hg, hs⟩ := hgets k hk
    have hsome := getT_isSome_of_lt hlen (hrange k hk)
    obtain ⟨v, hv⟩ := Option.isSome_iff_exists.mp hsome
    constructor
    · rw [hg, hv]
      rfl
    · obtain ⟨r, hrmem, hrk⟩ := hmem k hk
      have hfind : ∃ r', (bkt t (hashIdx t.size_ k 0)).find? (fun x => x.1 == k) = some r' := by
        apply Option.isSome_iff_exists.mp
        rw [List.find?_isSome]
        exact ⟨r, hrmem, by simp [hrk]⟩
      obtain ⟨r', hr'⟩ := hfind
      have hget : getT t k = some r'.2 := by
        simp only [getT, getElem?_eq_some_bkt (show hashIdx t.size_ k 0 < t.record_arr_.length by rw [hlen]; exact hrange k hk), hr']
      have hsubt : subscriptT t k = some (.ok r'.2) := by
        simp only [subscriptT, getElem?_eq_some_bkt (show hashIdx t.size_ k 0 < t.record_arr_.length by rw [hlen]; exact hrange k hk), hr']
      rw [hs, hsubt, hget]
      rfl

/-- get and operator[] against two states agree on a key whenever both
states resolve it through in-range buckets whose scans agree. -/
theorem getT_subT_congr [Inhabited V] {t₁ t₂ : Table V} {k : Key}
    (hlt₁ : hashIdx t₁.size_ k 0 < t₁.record_arr_.length)
    (hlt₂ : hashIdx t₂.size_ k 0 < t₂.record_arr_.length)
    (hfind : (bkt t₁ (hashIdx t₁.size_ k 0)).find? (fun r => r.1 == k) =
             (bkt t₂ (hashIdx t₂.size_ k 0)).find? (fun r => r.1 == k)) :
    getT t₁ k = getT t₂ k ∧ subscriptT t₁ k = subscriptT t₂ k := by
  constructor
  · simp only [getT, getElem?_eq_some_bkt hlt₁, getElem?_eq_some_bkt hlt₂, hfind]
  · simp only [subscriptT, getElem?_eq_some_bkt hlt₁, getElem?_eq_some_bkt hlt₂, hfind]

/-- Structural facts about the state after the append branch of insert:
the new key goes to the back of its (in-range) bucket and of the order
list, every invariant except the load bound carries over, and reads of
previously present keys are untouched. -/
theorem insert_append_facts [Inhabited V] {t t1 : Table V} {key : Key} {value : V}
    (hwf : WF t) (hnew : key ∉ t.key_list_)
    (hidxlt : hashIdx t.size_ key 0 < t.record_arr_.length)
    (h1 : t1.size_ = t.size_)
    (h2 : t1.record_count_ = t.record_count_ + 1)
    (h3 : t1.record_arr_ = t.record_arr_.set (hashIdx t.size_ key 0)
        (bkt t (hashIdx t.size_ key 0) ++ [(key, value)]))
    (h4 : t1.key_list_ = t.key_list_ ++ [key]) :
    t1.record_arr_.length = t1.size_ ∧ 64 ≤ t1.size_ ∧ t1.key_list_.Nodup ∧
    (∀ k ∈ t1.key_list_, hashIdx t1.size_ k 0 < t1.size_) ∧
    (∀ i, ∀ r ∈ bkt t1 i, hashIdx t1.size_ r.1 0 = i) ∧
    (∀ i, ((bkt t1 i).map Prod.fst).Sublist t1.key_list_) ∧
    (∀ k ∈ t1.key_list_, ∃ r ∈ bkt t1 (hashIdx t1.size_ k 0), r.1 = k) ∧
    (∀ k ∈ t.key_list_, getT t1 k = getT t k ∧ subscriptT t1 k = subscriptT t k) := by
  have hkeyrange : hashIdx t.size_ key 0 < t.size_ := by
    have h := hwf.hlen; omega
  have hlen1 : t1.record_arr_.length = t1.size_ := by
    rw [h3, List.length_set, hwf.hlen, h1]
  have hb1 : bkt t1 (hashIdx t.size_ key 0) =
      bkt t (hashIdx t.size_ key 0) ++ [(key, value)] := by
    rw [bkt, h3, List.getElem?_set_self hidxlt]
    rfl
  have hb2 : ∀ j, j ≠ hashIdx t.size_ key 0 → bkt t1 j = bkt t j := by
    intro j hj
    rw [bkt, h3, List.getElem?_set_ne (by omega)]
    rfl
  have hnodup1 : t1.key_list_.Nodup := by
    rw [h4, List.nodup_append]
    refine ⟨hwf.hnodup, List.nodup_singleton _, ?_⟩
    intro a ha hb
    rw [List.mem_singleton] at hb
    subst hb
    exact hnew ha
  have hrange1 : ∀ k ∈ t1.key_list_, hashIdx t1.size_ k 0 < t1.size_ := by
    intro k hk
    rw [h4] at hk
    rw [h1]
    rcases List.mem_append.mp hk with hk | hk
    · exact hwf.hrange k hk
    · rw [List.mem_singleton] at hk
      subst hk
      exact hkeyrange
  refine ⟨hlen1, by rw [h1]; exact hwf.hmin, hnodup1, hrange1, ?_, ?_, ?_, ?_⟩
  · intro i r hr
    rw [h1]
    by_cases hi : i = hashIdx t.size_ key 0
    · subst hi
      rw [hb1] at hr
      rcases List.mem_append.mp hr with hr | hr
      · exact hwf.hplace _ r hr
      · rw [List.mem_singleton] at hr
        subst hr
        rfl
    · rw [hb2 i hi] at hr
      exact hwf.hplace i r hr
  · intro i
    rw [h4]
    by_cases hi : i = hashIdx t.size_ key 0
    · subst hi
      rw [hb1, List.map_append]
      exact (hwf.hsub _).append (List.Sublist.refl _)
    · rw [hb2 i hi]
      exact (hwf.hsub i).trans (List.sublist_append_left _ _)
  · intro k hk
    rw [h4] at hk
    rcases List.mem_append.mp hk with hk | hk
    · obtain ⟨r, hrm, hrk⟩ := hwf.hmem k hk
      have hik : hashIdx t1.size_ k 0 = hashIdx t.size_ k 0 := by rw [h1]
      rw [hik]
      by_cases hcase : hashIdx t.size_ k 0 = hashIdx t.size_ key 0
      · rw [hcase, hb1]
        rw [hcase] at hrm
        exact ⟨r, List.mem_append_left _ hrm, hrk⟩
      · rw [hb2 _ hcase]
        exact ⟨r, hrm, hrk⟩
    · rw [List.mem_singleton] at hk
      subst hk
      have hik : hashIdx t1.size_ k 0 = hashIdx t.size_ k 0 := by rw [h1]
      rw [hik, hb1]
      exact ⟨(k, value), List.mem_append_right _ (by simp), rfl⟩
  · intro k hk
    have hik : hashIdx t1.size_ k 0 = hashIdx t.size_ k 0 := by rw [h1]
    have hklt : hashIdx t.size_ k 0 < t.record_arr_.length := by
      rw [hwf.hlen]; exact hwf.hrange k hk
    apply getT_subT_congr
    · rw [hik, hlen1, h1]
      exact hwf.hrange k hk
    · exact hklt
    · rw [hik]
      by_cases hcase : hashIdx t.size_ k 0 = hashIdx t.size_ key 0
      · rw [hcase, hb1]
        obtain ⟨r, hrm, hrk⟩ := hwf.hmem k hk
        rw [hcase] at hrm
        have hsome : ((bkt t (hashIdx t.size_ key 0)).find?
            (fun r => r.1 == k)).isSome := by
          rw [List.find?_isSome]
          exact ⟨r, hrm, by simp [hrk]⟩
        obtain ⟨r₀, hr₀⟩ := Option.isSome_iff_exists.mp hsome
        rw [List.find?_append, hr₀]
        rfl
      · rw [hb2 _ hcase]

/-- insert of a genuinely new key on a well-formed table: the state stays
well-formed, the key goes to the back of the order list, the size stays or
doubles, and reads of previously present keys are unchanged — whether or
not the insert triggered an expand. -/
theorem insertT_new_lemma [Inhabited V] {t t' : Table V} {key : Key} {value : V}
    (hwf : WF t) (hnew : key ∉ t.key_list_)
    (hins : insertT t key value = some t') :
    WF t' ∧ t'.key_list_ = t.key_list_ ++ [key] ∧
    (t'.size_ = t.size_ ∨ t'.size_ = t.size_ * 2) ∧
    (∀ k ∈ t.key_list_, getT t' k = getT t k ∧ subscriptT t' k = subscriptT t k) := by
  simp only [insertT] at hins
  cases harr : t.record_arr_[hashIdx t.size_ key 0]? with
  | none => rw [harr] at hins; exact absurd hins (by simp)
  | some cell =>
    rw [harr] at hins
    have hcell : bkt t (hashIdx t.size_ key 0) = cell := bkt_eq_of_getElem? harr
    have hidxlt : hashIdx t.size_ key 0 < t.record_arr_.length := by
      by_contra hge
      rw [List.getElem?_eq_none (by omega)] at harr
      exact absurd harr (by simp)
    have hnotin : ∀ r ∈ cell, (r.1 == key) = false := by
      intro r hr
      have h1 : r.1 ∈ (bkt t (hashIdx t.size_ key 0)).map Prod.fst := by
        rw [hcell]; exact List.mem_map_of_mem _ hr
      have h2 : r.1 ∈ t.key_list_ := (hwf.hsub _).subset h1
      simp only [beq_eq_false_iff_ne, ne_eq]
      rintro rfl
      exact hnew h2
    have hfidx : cell.findIdx? (fun r => r.1 == key) = none :=
      List.findIdx?_eq_none_iff.mpr hnotin
    simp only [hfidx] at hins
    obtain ⟨f1, f2, f3, f4, f5, f6, f7, f8⟩ :=
      insert_append_facts hwf hnew hidxlt
        (show ({ t with
            key_list_ := t.key_list_ ++ [key]
            record_count_ := t.record_count_ + 1
            record_arr_ := t.record_arr_.set (hashIdx t.size_ key 0)
              (cell ++ [(key, value)]) } : Table V).size_ = t.size_ from rfl)
        rfl (by rw [hcell]) rfl
    split at hins
    case isTrue hc =>
      obtain ⟨t'', hexp, e1, e2, e3, e4, e5, e6, e7, e8⟩ :=
        expandT_lemma f1 f2 f3 f4 f7
      rw [hexp] at hins
      have ht'' : t'' = t' := by
        injection hins
      subst ht''
      have hload' : 2 * t''.record_count_ < t''.size_ := by
        have hl := hwf.hload
        have hm := hwf.hmin
        simp only at e1 e2
        omega
      refine ⟨⟨e4, ?_, hload', ?_, ?_, e5, e6, e7⟩, ?_, ?_, ?_⟩
      · have hm := hwf.hmin
        simp only at e1
        omega
      · rw [e3]; exact f3
      · intro k hk
        rw [e3] at hk
        have := f4 k hk
        simp only at e1
        rw [e1]
        simp only at this
        apply hashIdx_lt_of_le _ _ k (by have := hwf.hmin; omega) (by omega) this
      · rw [e3]
      · right
        simp only at e1
        exact e1
      · intro k hk
        have hk1 : k ∈ t.key_list_ ++ [key] := List.mem_append_left _ hk
        obtain ⟨g1, g2⟩ := e8 k hk1
        obtain ⟨g3, g4⟩ := f8 k hk
        exact ⟨g1.trans g3, g2.trans g4⟩
    case isFalse hc =>
      have ht1 : _ = t' := Option.some.inj hins
      refine ⟨?_, ?_, ?_, ?_⟩
      · rw [← ht1]
        exact ⟨f1, f2, by simp only at hc ⊢; omega, f3, f4, f5, f6, f7⟩
      · rw [← ht1]
      · left
        rw [← ht1]
      · intro k hk
        rw [← ht1]
        exact f8 k hk

/-! ## Small list facts used by the remaining operation lemmas -/

theorem set_getElem?_self : ∀ {l : List α} {i : Nat} {a : α},
    l[i]? = some a → l.set i a = l := by
  intro l
  induction l with
  | nil => intro i a h; simp at h
  | cons x xs ih =>
    intro i a h
    cases i with
    | zero =>
      simp only [List.getElem?_cons_zero, Option.some.injEq] at h
      rw [h, List.set_cons_zero]
    | succ n =>
      simp only [List.getElem?_cons_succ] at h
      rw [List.set_cons_succ, ih h]

theorem map_eraseIdx' (f : α → β) : ∀ (l : List α) (i : Nat),
    (l.eraseIdx i).map f = (l.map f).eraseIdx i := by
  intro l
  induction l with
  | nil => intro i; simp
  | cons x xs ih =>
    intro i
    cases i with
    | zero => simp
    | succ n => simp [List.eraseIdx_cons_succ, ih n]

theorem mem_eraseIdx_of_mem_of_ne {l : List α} {x : α} {i : Nat}
    (hi : i < l.length) (hx : x ∈ l) (hne : x ≠ l[i]) : x ∈ l.eraseIdx i := by
  obtain ⟨m, hm, hml⟩ := List.getElem_of_mem hx
  have hmi : m ≠ i := by
    rintro rfl
    exact hne hml.symm
  rw [List.mem_eraseIdx_iff_getElem]
  exact ⟨m, hm, hmi, hml⟩

theorem eraseIdx_findIdx_eq_erase [BEq α] [LawfulBEq α] (l : List α) (a : α) (i : Nat)
    (h : l.findIdx? (fun x => x == a) = some i) : l.eraseIdx i = l.erase a := by
  obtain ⟨hlt, hfi⟩ := List.findIdx?_eq_some_iff_findIdx_eq.mp h
  rw [← List.eraseIdx_indexOf_eq_erase]
  have : l.indexOf a = i := hfi
  rw [this]

/-- Splitting a sublist of a list with a fresh last element: if the last
element occurs in the sublist it is its last element too, and dropping it
from both sides preserves the sublist relation; if it does not occur, the
sublist already fits in the front part. -/
theorem sublist_concat_split {s l : List α} {a : α}
    (h : s.Sublist (l ++ [a])) (ha : a ∉ l) :
    (a ∈ s → s.dropLast.Sublist l ∧ s.getLast? = some a) ∧ (a ∉ s → s.Sublist l) := by
  obtain ⟨s₁, s₂, hs, hs₁, hs₂⟩ := List.sublist_append_iff.mp h
  rcases List.sublist_singleton.mp hs₂ with rfl | rfl
  · subst hs
    rw [List.append_nil]
    constructor
    · intro hmem
      exact absurd (hs₁.subset hmem) ha
    · intro _
      exact hs₁
  · subst hs
    constructor
    · intro _
      rw [List.dropLast_concat, List.getLast?_concat]
      exact ⟨hs₁, rfl⟩
    · intro hmem
      exact absurd (List.mem_append_right s₁ (by simp)) hmem

theorem mem_dropLast_of_mem_of_ne {l : List α} {x : α} (hne : l ≠ [])
    (hx : x ∈ l) (hxl : x ≠ l.getLast hne) : x ∈ l.dropLast := by
  have hdec := List.dropLast_append_getLast hne
  rw [← hdec] at hx
  rcases List.mem_append.mp hx with h | h
  · exact h
  · rw [List.mem_singleton] at h
    exact absurd h hxl

/-- Overwriting the value of the record found for a key — the shared
effect of insert on an existing key and of assignment through operator[]
— changes no key structure, so well-formedness carries over whole. -/
theorem set_value_facts [Inhabited V] {t t2 : Table V} {key : Key} {value : V} {i : Nat}
    (hwf : WF t)
    (hidxlt : hashIdx t.size_ key 0 < t.record_arr_.length)
    (hfind : (bkt t (hashIdx t.size_ key 0)).findIdx? (fun r => r.1 == key) = some i)
    (h1 : t2.size_ = t.size_) (h2 : t2.record_count_ = t.record_count_)
    (h3 : t2.record_arr_ = t.record_arr_.set (hashIdx t.size_ key 0)
        ((bkt t (hashIdx t.size_ key 0)).set i (key, value)))
    (h4 : t2.key_list_ = t.key_list_) :
    WF t2 := by
  obtain ⟨hilt, hip, _⟩ := List.findIdx?_eq_some_iff_getElem.mp hfind
  have hikey : (bkt t (hashIdx t.size_ key 0))[i].1 = key := by
    have := hip
    simpa using this
  have hmapfst : ((bkt t (hashIdx t.size_ key 0)).set i (key, value)).map Prod.fst =
      (bkt t (hashIdx t.size_ key 0)).map Prod.fst := by
    rw [List.map_set]
    apply set_getElem?_self
    rw [List.getElem?_map, List.getElem?_eq_getElem hilt]
    simp [hikey]
  have hb1 : bkt t2 (hashIdx t.size_ key 0) =
      (bkt t (hashIdx t.size_ key 0)).set i (key, value) := by
    rw [bkt, h3, List.getElem?_set_self hidxlt]
    rfl
  have hb2 : ∀ j, j ≠ hashIdx t.size_ key 0 → bkt t2 j = bkt t j := by
    intro j hj
    rw [bkt, h3, List.getElem?_set_ne (by omega)]
    rfl
  have hkeyhash : hashIdx t.size_ key 0 = hashIdx t.size_ key 0 := rfl
  have hkeyplace : hashIdx t.size_ key 0 =
      hashIdx t.size_ ((bkt t (hashIdx t.size_ key 0))[i].1) 0 := by rw [hikey]
  refine ⟨?_, ?_, ?_, ?_, ?_, ?_, ?_, ?_⟩
  · rw [h3, List.length_set, hwf.hlen, h1]
  · rw [h1]; exact hwf.hmin
  · rw [h1, h2]; exact hwf.hload
  · rw [h4]; exact hwf.hnodup
  · intro k hk
    rw [h4] at hk
    rw [h1]
    exact hwf.hrange k hk
  · intro j r hr
    rw [h1]
    by_cases hj : j = hashIdx t.size_ key 0
    · subst hj
      rw [hb1] at hr
      rcases List.mem_or_eq_of_mem_set hr with hr | hr
      · exact hwf.hplace _ r hr
      · subst hr
        rfl
    · rw [hb2 j hj] at hr
      exact hwf.hplace j r hr
  · intro j
    rw [h4]
    by_cases hj : j = hashIdx t.size_ key 0
    · subst hj
      rw [hb1, hmapfst]
      exact hwf.hsub _
    · rw [hb2 j hj]
      exact hwf.hsub j
  · intro k hk
    rw [h4] at hk
    have hik : hashIdx t2.size_ k 0 = hashIdx t.size_ k 0 := by rw [h1]
    rw [hik]
    obtain ⟨r, hrm, hrk⟩ := hwf.hmem k hk
    by_cases hcase : hashIdx t.size_ k 0 = hashIdx t.size_ key 0
    · rw [hcase, hb1]
      have : k ∈ ((bkt t (hashIdx t.size_ key 0)).set i (key, value)).map Prod.fst := by
        rw [hmapfst]
        rw [hcase] at hrm
        rw [← hrk]
        exact List.mem_map_of_mem _ hrm
      obtain ⟨r', hr'm, hr'k⟩ := List.mem_map.mp this
      exact ⟨r', hr'm, hr'k⟩
    · rw [hb2 _ hcase]
      exact ⟨r, hrm, hrk⟩

/-- insert on an already-present key takes the overwrite branch: the state
stays well-formed and nothing but that record's value changes. -/
theorem insertT_existing_lemma [Inhabited V] {t t' : Table V} {key : Key} {value : V}
    (hwf : WF t) (hold : key ∈ t.key_list_)
    (hins : insertT t key value = some t') :
    WF t' ∧ t'.key_list_ = t.key_list_ ∧ t'.size_ = t.size_ ∧
    t'.record_count_ = t.record_count_ := by
  simp only [insertT] at hins
  cases harr : t.record_arr_[hashIdx t.size_ key 0]? with
  | none => rw [harr] at hins; exact absurd hins (by simp)
  | some cell =>
    rw [harr] at hins
    have hcell : bkt t (hashIdx t.size_ key 0) = cell := bkt_eq_of_getElem? harr
    have hidxlt : hashIdx t.size_ key 0 < t.record_arr_.length := by
      by_contra hge
      rw [List.getElem?_eq_none (by omega)] at harr
      exact absurd harr (by simp)
    obtain ⟨r, hrm, hrk⟩ := hwf.hmem key hold
    rw [hcell] at hrm
    have hne : cell.findIdx? (fun r => r.1 == key) ≠ none := by
      intro hnone
      have := List.findIdx?_eq_none_iff.mp hnone r hrm
      simp [hrk] at this
    obtain ⟨i, hfi⟩ := Option.ne_none_iff_exists'.mp hne
    simp only [hfi] at hins
    have ht' := (Option.some.inj hins).symm
    subst ht'
    refine ⟨?_, rfl, rfl, rfl⟩
    exact set_value_facts hwf hidxlt (by rw [hcell]; exact hfi) rfl rfl
      (by rw [hcell]) rfl

/-- Assignment through operator[] preserves well-formedness and every
bookkeeping field. -/
theorem subscrSet_lemma [Inhabited V] {t t' : Table V} {key : Key} {value : V}
    (hwf : WF t) (hset : subscrSet t key value = some t') :
    WF t' ∧ t'.key_list_ = t.key_list_ ∧ t'.size_ = t.size_ ∧
    t'.record_count_ = t.record_count_ := by
  simp only [subscrSet] at hset
  cases harr : t.record_arr_[hashIdx t.size_ key 0]? with
  | none => rw [harr] at hset; exact absurd hset (by simp)
  | some cell =>
    rw [harr] at hset
    have hcell : bkt t (hashIdx t.size_ key 0) = cell := bkt_eq_of_getElem? harr
    have hidxlt : hashIdx t.size_ key 0 < t.record_arr_.length := by
      by_contra hge
      rw [List.getElem?_eq_none (by omega)] at harr
      exact absurd harr (by simp)
    cases hfi : cell.findIdx? (fun r => r.1 == key) with
    | none =>
      simp only [hfi] at hset
      exact absurd hset (by simp)
    | some i =>
      simp only [hfi] at hset
      have ht' := (Option.some.inj hset).symm
      subst ht'
      refine ⟨?_, rfl, rfl, rfl⟩
      exact set_value_facts hwf hidxlt (by rw [hcell]; exact hfi) rfl rfl
        (by rw [hcell]) rfl

/-- The state after erasing a present key: the key loses its single
record (at the first matching bucket position) and its single order-list
entry, and every invariant carries over. -/
theorem erase_present_facts [Inhabited V] {t t2 : Table V} {key : Key} {iB iK : Nat}
    (hwf : WF t)
    (hidxlt : hashIdx t.size_ key 0 < t.record_arr_.length)
    (hiB : (bkt t (hashIdx t.size_ key 0)).findIdx? (fun r => r.1 == key) = some iB)
    (hiK : t.key_list_.findIdx? (fun k => k == key) = some iK)
    (h1 : t2.size_ = t.size_)
    (h2 : t2.record_count_ = t.record_count_ - 1)
    (h3 : t2.record_arr_ = t.record_arr_.set (hashIdx t.size_ key 0)
        ((bkt t (hashIdx t.size_ key 0)).eraseIdx iB))
    (h4 : t2.key_list_ = t.key_list_.eraseIdx iK) :
    WF t2 := by
  obtain ⟨hiBlt, hiBp, _⟩ := List.findIdx?_eq_some_iff_getElem.mp hiB
  have hiBkey : (bkt t (hashIdx t.size_ key 0))[iB].1 = key := by simpa using hiBp
  have hklE : t.key_list_.eraseIdx iK = t.key_list_.erase key :=
    eraseIdx_findIdx_eq_erase _ _ _ hiK
  have hmapE : ((bkt t (hashIdx t.size_ key 0)).eraseIdx iB).map Prod.fst =
      ((bkt t (hashIdx t.size_ key 0)).map Prod.fst).erase key := by
    rw [map_eraseIdx']
    apply eraseIdx_findIdx_eq_erase
    rw [List.findIdx?_map]
    exact hiB
  have hb1 : bkt t2 (hashIdx t.size_ key 0) =
      (bkt t (hashIdx t.size_ key 0)).eraseIdx iB := by
    rw [bkt, h3, List.getElem?_set_self hidxlt]
    rfl
  have hb2 : ∀ j, j ≠ hashIdx t.size_ key 0 → bkt t2 j = bkt t j := by
    intro j hj
    rw [bkt, h3, List.getElem?_set_ne (by omega)]
    rfl
  have hkey_not_mem : key ∉ t.key_list_.erase key := hwf.hnodup.not_mem_erase
  refine ⟨?_, by rw [h1]; exact hwf.hmin, ?_, ?_, ?_, ?_, ?_, ?_⟩
  · rw [h3, List.length_set, hwf.hlen, h1]
  · have := hwf.hload
    omega
  · rw [h4, hklE]
    exact (List.erase_sublist key t.key_list_).nodup hwf.hnodup
  · intro k hk
    rw [h4, hklE] at hk
    rw [h1]
    exact hwf.hrange k ((List.erase_sublist key t.key_list_).subset hk)
  · intro j r hr
    rw [h1]
    by_cases hj : j = hashIdx t.size_ key 0
    · subst hj
      rw [hb1] at hr
      exact hwf.hplace _ r ((List.eraseIdx_sublist _ iB).subset hr)
    · rw [hb2 j hj] at hr
      exact hwf.hplace j r hr
  · intro j
    rw [h4, hklE]
    by_cases hj : j = hashIdx t.size_ key 0
    · subst hj
      rw [hb1, hmapE]
      exact (hwf.hsub _).erase key
    · rw [hb2 j hj]
      by_cases hmemj : key ∈ (bkt t j).map Prod.fst
      · obtain ⟨r', hr'm, hr'k⟩ := List.mem_map.mp hmemj
        have := hwf.hplace j r' hr'm
        rw [hr'k] at this
        exact absurd this.symm hj
      · rw [← List.erase_of_not_mem hmemj]
        exact (hwf.hsub j).erase key
  · intro k hk
    rw [h4, hklE] at hk
    have hkmem : k ∈ t.key_list_ := (List.erase_sublist key t.key_list_).subset hk
    have hkne : k ≠ key := by
      rintro rfl
      exact hkey_not_mem hk
    obtain ⟨rk, hrkm, hrkk⟩ := hwf.hmem k hkmem
    have hik : hashIdx t2.size_ k 0 = hashIdx t.size_ k 0 := by rw [h1]
    rw [hik]
    by_cases hcase : hashIdx t.size_ k 0 = hashIdx t.size_ key 0
    · rw [hcase, hb1]
      rw [hcase] at hrkm
      have hrkne : rk ≠ (bkt t (hashIdx t.size_ key 0))[iB] := by
        intro heq
        rw [heq, hiBkey] at hrkk
        exact hkne hrkk.symm
      exact ⟨rk, mem_eraseIdx_of_mem_of_ne hiBlt hrkm hrkne, hrkk⟩
    · rw [hb2 _ hcase]
      exact ⟨rk, hrkm, hrkk⟩

/-- erase preserves well-formedness: an absent key leaves the state as it
was; a present key loses its one record and its one order-list entry. -/
theorem eraseT_lemma [Inhabited V] {t t' : Table V} {key : Key}
    (hwf : WF t) (hdel : eraseT t key = some t') :
    WF t' ∧ t'.size_ = t.size_ ∧ t'.record_count_ ≤ t.record_count_ := by
  simp only [eraseT] at hdel
  cases harr : t.record_arr_[hashIdx t.size_ key 0]? with
  | none => rw [harr] at hdel; exact absurd hdel (by simp)
  | some cell =>
    rw [harr] at hdel
    have hcell : bkt t (hashIdx t.size_ key 0) = cell := bkt_eq_of_getElem? harr
    have hidxlt : hashIdx t.size_ key 0 < t.record_arr_.length := by
      by_contra hge
      rw [List.getElem?_eq_none (by omega)] at harr
      exact absurd harr (by simp)
    by_cases hkey : key ∈ t.key_list_
    · obtain ⟨r, hrm, hrk⟩ := hwf.hmem key hkey
      rw [hcell] at hrm
      have hBne : cell.findIdx? (fun r => r.1 == key) ≠ none := by
        intro hnone
        have := List.findIdx?_eq_none_iff.mp hnone r hrm
        simp [hrk] at this
      obtain ⟨iB, hiB⟩ := Option.ne_none_iff_exists'.mp hBne
      have hKne : t.key_list_.findIdx? (fun k => k == key) ≠ none := by
        intro hnone
        have := List.findIdx?_eq_none_iff.mp hnone key hkey
        simp at this
      obtain ⟨iK, hiK⟩ := Option.ne_none_iff_exists'.mp hKne
      simp only [hiB, hiK] at hdel
      have ht' := (Option.some.inj hdel).symm
      subst ht'
      refine ⟨?_, rfl, Nat.sub_le _ _⟩
      exact erase_present_facts hwf hidxlt (by rw [hcell]; exact hiB) hiK
        rfl rfl (by rw [hcell]) rfl
    · have hBnone : cell.findIdx? (fun r => r.1 == key) = none := by
        rw [List.findIdx?_eq_none_iff]
        intro r hr
        have h1 : r.1 ∈ (bkt t (hashIdx t.size_ key 0)).map Prod.fst := by
          rw [hcell]; exact List.mem_map_of_mem _ hr
        have h2 : r.1 ∈ t.key_list_ := (hwf.hsub _).subset h1
        simp only [beq_eq_false_iff_ne, ne_eq]
        rintro rfl
        exact hkey h2
      have hKnone : t.key_list_.findIdx? (fun k => k == key) = none := by
        rw [List.findIdx?_eq_none_iff]
        intro k hk
        simp only [beq_eq_false_iff_ne, ne_eq]
        rintro rfl
        exact hkey hk
      simp only [hBnone, hKnone] at hdel
      have ht' := (Option.some.inj hdel).symm
      subst ht'
      have hset : t.record_arr_.set (hashIdx t.size_ key 0) cell = t.record_arr_ :=
        set_getElem?_self harr
      refine ⟨?_, rfl, le_refl _⟩
      have heq : ({ t with
          record_arr_ := t.record_arr_.set (hashIdx t.size_ key 0) cell } : Table V) = t := by
        rw [hset]
      rw [heq]
      exact hwf

/-- The state after pop on a non-empty table: the most recent key is the
last entry of both the order list and its bucket (because buckets list
records in insertion order), so dropping the back of each removes exactly
that key's record, and every invariant carries over. -/
theorem pop_present_facts [Inhabited V] {t t2 : Table V} {key : Key}
    (hwf : WF t) (hne : t.key_list_ ≠ [])
    (hkeylast : key = t.key_list_.getLast hne)
    (hidxlt : hashIdx t.size_ key 0 < t.record_arr_.length)
    (h1 : t2.size_ = t.size_) (h2 : t2.record_count_ = t.record_count_ - 1)
    (h3 : t2.record_arr_ = t.record_arr_.set (hashIdx t.size_ key 0)
        ((bkt t (hashIdx t.size_ key 0)).dropLast))
    (h4 : t2.key_list_ = t.key_list_.dropLast) :
    WF t2 := by
  have hkmem : key ∈ t.key_list_ := by
    rw [hkeylast]; exact List.getLast_mem hne
  have hdec : t.key_list_.dropLast ++ [key] = t.key_list_ := by
    rw [hkeylast]; exact List.dropLast_append_getLast hne
  have hkey_not_dl : key ∉ t.key_list_.dropLast := by
    have hnd := hwf.hnodup
    rw [← hdec, List.nodup_append] at hnd
    intro hmem
    exact hnd.2.2 hmem (by simp)
  obtain ⟨r₀, hr₀m, hr₀k⟩ := hwf.hmem key hkmem
  have hkeyInCellKeys : key ∈ (bkt t (hashIdx t.size_ key 0)).map Prod.fst :=
    List.mem_map.mpr ⟨r₀, hr₀m, hr₀k⟩
  have hsubkl : ((bkt t (hashIdx t.size_ key 0)).map Prod.fst).Sublist
      (t.key_list_.dropLast ++ [key]) := by
    rw [hdec]; exact hwf.hsub _
  obtain ⟨hdl, hlastk⟩ := (sublist_concat_split hsubkl hkey_not_dl).1 hkeyInCellKeys
  have hb1 : bkt t2 (hashIdx t.size_ key 0) =
      (bkt t (hashIdx t.size_ key 0)).dropLast := by
    rw [bkt, h3, List.getElem?_set_self hidxlt]
    rfl
  have hb2 : ∀ j, j ≠ hashIdx t.size_ key 0 → bkt t2 j = bkt t j := by
    intro j hj
    rw [bkt, h3, List.getElem?_set_ne (by omega)]
    rfl
  have hcne : bkt t (hashIdx t.size_ key 0) ≠ [] := by
    intro hnil
    rw [hnil] at hkeyInCellKeys
    simp at hkeyInCellKeys
  have hlastrec : (bkt t (hashIdx t.size_ key 0)).getLast hcne ∈
      bkt t (hashIdx t.size_ key 0) := List.getLast_mem hcne
  have hlastreckey : ((bkt t (hashIdx t.size_ key 0)).getLast hcne).1 = key := by
    have hm := List.getLast?_map Prod.fst (bkt t (hashIdx t.size_ key 0))
    rw [List.getLast?_eq_getLast _ hcne] at hm
    rw [hlastk] at hm
    exact (Option.some.inj hm).symm
  refine ⟨?_, by rw [h1]; exact hwf.hmin, ?_, ?_, ?_, ?_, ?_, ?_⟩
  · rw [h3, List.length_set, hwf.hlen, h1]
  · have := hwf.hload
    omega
  · rw [h4]
    exact (List.dropLast_sublist _).nodup hwf.hnodup
  · intro k hk
    rw [h4] at hk
    rw [h1]
    exact hwf.hrange k ((List.dropLast_sublist _).subset hk)
  · intro j r hr
    rw [h1]
    by_cases hj : j = hashIdx t.size_ key 0
    · subst hj
      rw [hb1] at hr
      exact hwf.hplace _ r ((List.dropLast_sublist _).subset hr)
    · rw [hb2 j hj] at hr
      exact hwf.hplace j r hr
  · intro j
    rw [h4]
    by_cases hj : j = hashIdx t.size_ key 0
    · subst hj
      rw [hb1, List.map_dropLast]
      exact hdl
    · rw [hb2 j hj]
      have hkeynotj : key ∉ (bkt t j).map Prod.fst := by
        intro hmem
        obtain ⟨r', hr'm, hr'k⟩ := List.mem_map.mp hmem
        have := hwf.hplace j r' hr'm
        rw [hr'k] at this
        exact hj this.symm
      have hsubj : ((bkt t j).map Prod.fst).Sublist
          (t.key_list_.dropLast ++ [key]) := by
        rw [hdec]; exact hwf.hsub j
      exact (sublist_concat_split hsubj hkey_not_dl).2 hkeynotj
  · intro k hk
    rw [h4] at hk
    have hkmem' : k ∈ t.key_list_ := (List.dropLast_sublist _).subset hk
    have hkne : k ≠ key := by
      rintro rfl
      exact hkey_not_dl hk
    obtain ⟨rk, hrkm, hrkk⟩ := hwf.hmem k hkmem'
    have hik : hashIdx t2.size_ k 0 = hashIdx t.size_ k 0 := by rw [h1]
    rw [hik]
    by_cases hcase : hashIdx t.size_ k 0 = hashIdx t.size_ key 0
    · rw [hcase, hb1]
      rw [hcase] at hrkm
      have hrkne : rk ≠ (bkt t (hashIdx t.size_ key 0)).getLast hcne := by
        intro heq
        rw [heq, hlastreckey] at hrkk
        exact hkne hrkk.symm
      exact ⟨rk, mem_dropLast_of_mem_of_ne hcne hrkm hrkne, hrkk⟩
    · rw [hb2 _ hcase]
      exact ⟨rk, hrkm, hrkk⟩

/-- pop on a well-formed table: the run is defined only on a non-empty
table, and the resulting state is well-formed with the same size, a
decremented count, and the order list shortened at the back. -/
theorem popT_lemma [Inhabited V] {t t' : Table V} {v : V}
    (hwf : WF t) (hpop : popT t = some (v, t')) :
    WF t' ∧ t'.size_ = t.size_ ∧ t'.record_count_ ≤ t.record_count_ ∧
    t'.key_list_ = t.key_list_.dropLast := by
  simp only [popT] at hpop
  cases harr : t.record_arr_[hashIdx t.size_ ((t.key_list_.getLast?).getD []) 0]? with
  | none =>
    simp only [harr] at hpop
    exact Option.noConfusion hpop
  | some cell =>
    simp only [harr] at hpop
    have hcell : bkt t (hashIdx t.size_ ((t.key_list_.getLast?).getD []) 0) = cell :=
      bkt_eq_of_getElem? harr
    have hidxlt : hashIdx t.size_ ((t.key_list_.getLast?).getD []) 0 <
        t.record_arr_.length := by
      by_contra hge
      rw [List.getElem?_eq_none (by omega)] at harr
      exact absurd harr (by simp)
    cases hlast : cell.getLast? with
    | none =>
      simp only [hlast] at hpop
      exact Option.noConfusion hpop
    | some r =>
      simp only [hlast] at hpop
      have hinj := Option.some.inj hpop
      have hv : r.2 = v := congrArg Prod.fst hinj
      have ht' := (congrArg Prod.snd hinj).symm
      simp only at ht'
      have hne : t.key_list_ ≠ [] := by
        intro hnil
        have hsub := hwf.hsub (hashIdx t.size_ ((t.key_list_.getLast?).getD []) 0)
        rw [hcell, hnil, List.sublist_nil, List.map_eq_nil_iff] at hsub
        rw [hsub] at hlast
        simp at hlast
      have hkeyeq : (t.key_list_.getLast?).getD [] = t.key_list_.getLast hne := by
        rw [List.getLast?_eq_getLast _ hne]
        rfl
      subst ht'
      rw [hkeyeq] at hcell hidxlt
      refine ⟨?_, rfl, Nat.sub_le _ _, rfl⟩
      have h3' : t.record_arr_.set (hashIdx t.size_ ((t.key_list_.getLast?).getD []) 0)
            cell.dropLast =
          t.record_arr_.set (hashIdx t.size_ (t.key_list_.getLast hne) 0)
            ((bkt t (hashIdx t.size_ (t.key_list_.getLast hne) 0)).dropLast) := by
        rw [hkeyeq, hcell]
      exact pop_present_facts hwf hne rfl hidxlt rfl rfl h3' rfl

/-- Every state reachable through the public mutating interface is
well-formed. -/
theorem reachable_wf [Inhabited V] {t : Table V} (h : Reachable t) : WF t := by
  induction h with
  | mk size => exact mkTable_WF size
  | @insert t t' key value hr hins ih =>
    by_cases hk : key ∈ t.key_list_
    · exact (insertT_existing_lemma ih hk hins).1
    · exact (insertT_new_lemma ih hk hins).1
  | @erase t t' key hr hdel ih => exact (eraseT_lemma ih hdel).1
  | @pop t t' value hr hpop ih => exact (popT_lemma ih hpop).1
  | @subscriptAssign t t' key value hr hset ih => exact (subscrSet_lemma ih hset).1

/-- Folding the insert step over any suffix from a dead accumulator stays
dead. -/
theorem insertSeq_none [Inhabited V] (kvs : List (Key × V)) :
    kvs.foldl (fun acc kv => acc.bind fun s => insertT s kv.1 kv.2)
      (none : Option (Table V)) = none := by
  induction kvs with
  | nil => rfl
  | cons kv rest ih => exact ih

/-- Unfolding one step of a sequence of inserts. -/
theorem insertSeq_cons [Inhabited V] (t : Table V) (kv : Key × V)
    (rest : List (Key × V)) :
    insertSeq t (kv :: rest) =
      (insertT t kv.1 kv.2).bind fun t1 => insertSeq t1 rest := by
  show List.foldl _ (insertT t kv.1 kv.2) rest = _
  cases hins : insertT t kv.1 kv.2 with
  | none => exact insertSeq_none rest
  | some t1 => rfl

/-- Inserting a run of distinct fresh keys: the run preserves
well-formedness, appends exactly those keys in order to the key list,
never shrinks the bucket array, and leaves get and operator[] unchanged
on every previously present key — including across any expand the run
triggers. -/
theorem insertSeq_new_lemma [Inhabited V] :
    ∀ (kvs : List (Key × V)) {t t' : Table V}, WF t →
      (∀ p ∈ kvs, p.1 ∉ t.key_list_) → (kvs.map Prod.fst).Nodup →
      insertSeq t kvs = some t' →
      WF t' ∧ t'.key_list_ = t.key_list_ ++ kvs.map Prod.fst ∧
      t.size_ ≤ t'.size_ ∧
      (∀ k ∈ t.key_list_, getT t' k = getT t k ∧ subscriptT t' k = subscriptT t k) := by
  intro kvs
  induction kvs with
  | nil =>
    intro t t' hwf _ _ hrun
    have ht : t = t' := Option.some.inj hrun
    subst ht
    exact ⟨hwf, by simp, le_refl _, fun k _ => ⟨rfl, rfl⟩⟩
  | cons kv rest ih =>
    intro t t' hwf hnew hnodup hrun
    rw [insertSeq_cons] at hrun
    cases hins : insertT t kv.1 kv.2 with
    | none => simp [hins] at hrun
    | some t1 =>
      rw [hins] at hrun
      have hrun2 : insertSeq t1 rest = some t' := hrun
      have hkv := hnew kv (List.mem_cons_self _ _)
      obtain ⟨hwf1, hkl1, hsz1, hget1⟩ := insertT_new_lemma hwf hkv hins
      simp only [List.map_cons, List.nodup_cons] at hnodup
      have hnew' : ∀ p ∈ rest, p.1 ∉ t1.key_list_ := by
        intro p hp
        rw [hkl1, List.mem_append]
        rintro (hmem | hmem)
        · exact hnew p (List.mem_cons_of_mem _ hp) hmem
        · simp only [List.mem_singleton] at hmem
          exact hnodup.1 (hmem ▸ List.mem_map_of_mem Prod.fst hp)
      obtain ⟨hwf', hkl', hsz', hget'⟩ := ih hwf1 hnew' hnodup.2 hrun2
      refine ⟨hwf', ?_, ?_, ?_⟩
      · rw [hkl', hkl1]
        simp
      · have h1 : t.size_ ≤ t1.size_ := by
          rcases hsz1 with h | h <;> omega
        exact h1.trans hsz'
      · intro k hk
        have hk1 : k ∈ t1.key_list_ := by
          rw [hkl1]; exact List.mem_append_left _ hk
        have ha := hget' k hk1
        have hb := hget1 k hk
        exact ⟨ha.1.trans hb.1, ha.2.trans hb.2⟩

/-- C2: on every reachable table, inserting any run of distinct keys not
yet present — in particular one long enough to push the load factor over
the threshold and force expand, witnessed by the strict growth of the
bucket array — leaves get and operator[] unchanged on every previously
inserted key, and the key order reported by keys() is the old order
followed by the new keys in insertion order. -/
theorem expansion_preserves_lookups_and_key_order {V : Type} [Inhabited V]
    {t t' : Table V} {kvs : List (Key × V)}
    (hreach : Reachable t)
    (hnodup : (kvs.map Prod.fst).Nodup)
    (hnew : ∀ p ∈ kvs, p.1 ∉ t.key_list_)
    (hrun : insertSeq t kvs = some t')
    (hgrew : t.size_ < t'.size_) :
    (∀ k ∈ t.key_list_, getT t' k = getT t k ∧ subscriptT t' k = subscriptT t k) ∧
    t'.key_list_ = t.key_list_ ++ kvs.map Prod.fst := by
  have h := insertSeq_new_lemma kvs (reachable_wf hreach) hnew hnodup hrun
  exact ⟨h.2.2.2, h.2.1⟩

/-- A table holding one record under key "a" (value 7), reached by a
single insert into a fresh table of default capacity. -/
def t0C2 : Table Int := (insertT (mkTable 0) [97] 7).getD (mkTable 0)

/-- 32 single-byte keys with distinct values: enough inserts to cross the
0.5 load threshold at size 64 and force an expand to 128. -/
def demoKVs : List (Key × Int) := (List.range 32).map (fun b => ([b], (b : Int) + 100))

/-- The table after running the 32 fresh inserts on t0C2. -/
def t1C2 : Table Int := (insertSeq t0C2 demoKVs).getD (mkTable 0)

set_option maxRecDepth 10000 in
theorem expansion_preserves_lookups_and_key_order_witness :
    getT t1C2 [97] = getT t0C2 [97] ∧
    subscriptT t1C2 [97] = subscriptT t0C2 [97] ∧
    t1C2.key_list_ = t0C2.key_list_ ++ demoKVs.map Prod.fst := by
  have h0 : insertT (mkTable 0) [97] (7 : Int) = some t0C2 := by decide
  have hreach : Reachable t0C2 := Reachable.insert [97] 7 (Reachable.mk 0) h0
  have hrun : insertSeq t0C2 demoKVs = some t1C2 := by decide
  have hgrew : t0C2.size_ < t1C2.size_ := by decide
  have h := expansion_preserves_lookups_and_key_order hreach (by decide) (by decide)
    hrun hgrew
  have hmem : [97] ∈ t0C2.key_list_ := by decide
  exact ⟨(h.1 [97] hmem).1, (h.1 [97] hmem).2, h.2⟩

/-- C9: on every reachable table the capacity is at least 64 and the load
factor is strictly below 0.5; an insert keeps the load strictly below 0.5,
leaves the capacity unchanged or exactly doubles it (the only change,
inside expand), and never shrinks it; erase, pop and assignment through
operator[] never change the capacity. -/
theorem capacity_invariants {V : Type} [Inhabited V]
    {t t1 t2 t3 t4 : Table V} {k1 k2 k4 : Key} {v1 v4 : V} {v3 : V}
    (hreach : Reachable t)
    (hins : insertT t k1 v1 = some t1)
    (hdel : eraseT t k2 = some t2)
    (hpop : popT t = some (v3, t3))
    (hset : subscrSet t k4 v4 = some t4) :
    64 ≤ t.size_ ∧ 2 * t.record_count_ < t.size_ ∧
    2 * t1.record_count_ < t1.size_ ∧
    (t1.size_ = t.size_ ∨ t1.size_ = 2 * t.size_) ∧ t.size_ ≤ t1.size_ ∧
    t2.size_ = t.size_ ∧ t3.size_ = t.size_ ∧ t4.size_ = t.size_ := by
  have hwf := reachable_wf hreach
  refine ⟨hwf.hmin, hwf.hload, ?_, ?_, ?_,
    (eraseT_lemma hwf hdel).2.1, (popT_lemma hwf hpop).2.1,
    (subscrSet_lemma hwf hset).2.2.1⟩
  · by_cases hk : k1 ∈ t.key_list_
    · exact (insertT_existing_lemma hwf hk hins).1.hload
    · exact (insertT_new_lemma hwf hk hins).1.hload
  · by_cases hk : k1 ∈ t.key_list_
    · exact Or.inl (insertT_existing_lemma hwf hk hins).2.2.1
    · rcases (insertT_new_lemma hwf hk hins).2.2.1 with h | h
      · exact Or.inl h
      · exact Or.inr (by omega)
  · have hmin := hwf.hmin
    by_cases hk : k1 ∈ t.key_list_
    · have := (insertT_existing_lemma hwf hk hins).2.2.1
      omega
    · rcases (insertT_new_lemma hwf hk hins).2.2.1 with h | h <;> omega

/-- The four mutators run on t0C2: a fresh insert, erasing the present
key, popping the most recent record, and assigning through operator[]. -/
def c9Ins : Table Int := (insertT t0C2 [98] 8).getD (mkTable 0)

def c9Del : Table Int := (eraseT t0C2 [97]).getD (mkTable 0)

def c9Pop : Table Int := ((popT t0C2).getD (0, mkTable 0)).2

def c9Set : Table Int := (subscrSet t0C2 [97] 9).getD (mkTable 0)

set_option maxRecDepth 10000 in
theorem capacity_invariants_witness :
    64 ≤ t0C2.size_ ∧ 2 * t0C2.record_count_ < t0C2.size_ ∧
    2 * c9Ins.record_count_ < c9Ins.size_ ∧
    (c9Ins.size_ = t0C2.size_ ∨ c9Ins.size_ = 2 * t0C2.size_) ∧
    t0C2.size_ ≤ c9Ins.size_ ∧
    c9Del.size_ = t0C2.size_ ∧ c9Pop.size_ = t0C2.size_ ∧
    c9Set.size_ = t0C2.size_ := by
  have h0 : insertT (mkTable 0) [97] (7 : Int) = some t0C2 := by decide
  have h1 : insertT t0C2 [98] (8 : Int) = some c9Ins := by decide
  have h2 : eraseT t0C2 [97] = some c9Del := by decide
  have h3 : popT t0C2 = some ((7 : Int), c9Pop) := by decide
  have h4 : subscrSet t0C2 [97] (9 : Int) = some c9Set := by decide
  exact capacity_invariants (Reachable.insert [97] 7 (Reachable.mk 0) h0)
    h1 h2 h3 h4

/-- The 8-character key "Czjvaenj": its djb2 accumulator is 0 mod 2^32. -/
def zeroKey : Key := [67, 122, 106, 118, 97, 101, 110, 106]

/-- C1: refuted — hash_function does not always land in [0, size). The key
"Czjvaenj" drives the djb2 accumulator to 0, so key_int * HASH_CONST_D has
zero fractional part, ceil of size * 0 is 0, and the function returns
0 - 1 = -1; returned through uint64_t this wraps to 2^64 - 1, far outside
a table of size 64. -/
theorem hash_function_escapes_range :
    keyIntOf zeroKey = 0 ∧ hashVal 64 zeroKey 0 = -1 ∧
    hashIdx 64 zeroKey 0 = W64 - 1 ∧ ¬ hashIdx 64 zeroKey 0 < 64 := by decide

/-- C5: refuted — pop() on a table containing no keys does not return a
default value; it looks up the bucket of the empty key, calls pop_back on
the empty record list, and dereferences the null Record pointer that
pop_back returns. In the model the run has no defined result. -/
theorem pop_on_empty_table_derefs_null :
    popT (mkTable 0 : Table Int) = none := by decide

end DataStructures
